import Mathlib

/-!
Verification of the wortl-coach challenge scheduling and review-selection
core against its specification.  The definitions below are a shallow
embedding of `src/services.js`, `src/scheduler.js` and `src/utils.js`:
Firestore collections become explicit lists, and every injected effect
(store reads, text generation, `Math.random`, the clock) becomes an
explicit parameter.  Machine numbers in the sources are non-negative
integers and millisecond durations, modelled as `Nat` and `ℚ`.
-/

namespace WortlCoach

/-- Semantics of the JS numeric default `a || b` (0 is falsy). -/
def jsOr (a b : Nat) : Nat := if a = 0 then b else a

/-- Phrase object stored inside a `feedback_items` document
(`logFeedback` in services.js pushes objects of this shape). -/
structure Phrase where
  original : String
  improved : String
  ptype : String
  importance : Nat
  repetitions : Nat
deriving DecidableEq

/-- One document of the per-user `feedback_items` collection, with the
fields `getReviewItems` and the repetition updater read or write. -/
structure FeedbackDoc where
  docId : String
  phrases : List Phrase
  importance : Nat
  repetitions : Nat
  categories : List String
  ts : Nat
deriving DecidableEq

/-- ReviewCandidate view built by `getReviewItems` for each phrase. -/
structure ReviewItem where
  id : String
  phraseId : String
  original : String
  improved : String
  ptype : String
  importance : Nat
  repetitions : Nat
  ts : Nat
  category : String
deriving DecidableEq

/-- Dedup key of a phrase: the template string
`phrase.original ++ "-" ++ phrase.improved` from getReviewItems. -/
def phraseKey (p : Phrase) : String := p.original ++ "-" ++ p.improved

/-- The object pushed onto `reviewItems` in getReviewItems for a phrase
`p` of document `d` (services.js lines 361-371). -/
def buildItem (d : FeedbackDoc) (p : Phrase) : ReviewItem :=
  { id := d.docId
    phraseId := phraseKey p
    original := p.original
    improved := p.improved
    ptype := p.ptype
    importance := jsOr p.importance (jsOr d.importance 3)
    repetitions := p.repetitions
    ts := d.ts
    category := d.categories.head?.getD "general" }

/-- Inner loop of getReviewItems over one document's `phrases` array,
threading the `processedPhrases` set (modelled as a list of keys). -/
def scanPhrases (d : FeedbackDoc) : List Phrase → List String → List ReviewItem × List String
  | [], seen => ([], seen)
  | p :: ps, seen =>
    if phraseKey p ∈ seen then scanPhrases d ps seen
    else
      let r := scanPhrases d ps (phraseKey p :: seen)
      (buildItem d p :: r.1, r.2)

/-- Outer loop of getReviewItems over the fetched documents (newest
first), accumulating review items with a shared seen set. -/
def scanDocs : List FeedbackDoc → List String → List ReviewItem
  | [], _ => []
  | d :: ds, seen =>
    let r := scanPhrases d d.phrases seen
    r.1 ++ scanDocs ds r.2

/-- All candidate items of the fetched documents in traversal order,
without deduplication (used to state the first-occurrence property). -/
def flatItems (docs : List FeedbackDoc) : List ReviewItem :=
  docs.flatMap fun d => d.phrases.map (buildItem d)

/-- Generic first-occurrence deduplication by `phraseId`; the nested
scan loops are proved equal to this below. -/
def dedupByKey : List ReviewItem → List String → List ReviewItem
  | [], _ => []
  | x :: xs, seen =>
    if x.phraseId ∈ seen then dedupByKey xs seen
    else x :: dedupByKey xs (x.phraseId :: seen)

/-- The seen-set left behind by a first-occurrence scan of a candidate
list (the keys added by `dedupByKey`). -/
def seenAfter : List ReviewItem → List String → List String
  | [], seen => seen
  | x :: xs, seen =>
    if x.phraseId ∈ seen then seenAfter xs seen
    else seenAfter xs (x.phraseId :: seen)

/-- Order used by the main `reviewItems.sort`: importance descending and,
on ties, repetitions ascending. -/
def itemLE (a b : ReviewItem) : Prop :=
  b.importance < a.importance ∨ (a.importance = b.importance ∧ a.repetitions ≤ b.repetitions)

instance : DecidableRel itemLE := fun a b => by
  unfold itemLE; infer_instance

/-- Order used by the per-group `sort((a, b) => a.repetitions - b.repetitions)`. -/
def repLE (a b : ReviewItem) : Prop := a.repetitions ≤ b.repetitions

instance : DecidableRel repLE := fun a b => by
  unfold repLE; infer_instance

/-- Contents of `groupedByImportance[k]`: the items of the sorted list
whose importance equals `k`, in order. -/
def groupFor (l : List ReviewItem) (k : Nat) : List ReviewItem :=
  l.filter fun x => x.importance == k

/-- Descending insertion used to model `Object.keys(...).sort((a, b) => b - a)`. -/
def insertDescNat (k : Nat) : List Nat → List Nat
  | [] => [k]
  | x :: xs => if x ≤ k then k :: x :: xs else x :: insertDescNat k xs

/-- Distinct keys sorted descending. -/
def sortDescNat (l : List Nat) : List Nat := l.foldr insertDescNat []

/-- The importance levels of a candidate list, deduplicated and in
descending order (`importanceLevels` in getReviewItems). -/
def importanceKeys (l : List ReviewItem) : List Nat :=
  sortDescNat ((l.map fun x => x.importance).dedup)

/-- Core of `getReviewItems` on a non-empty snapshot.  The `shuffle`
parameter models the injected randomness of services.js lines 397-408:
for each importance group (keyed by its importance value) either the
identity (the 70 percent keep-order branch) or a Fisher-Yates
permutation of the group; all theorems quantify over every permutation-
valued `shuffle`. -/
def getReviewItemsCore (docs : List FeedbackDoc) (limit : Nat)
    (shuffle : Nat → List ReviewItem → List ReviewItem) : List ReviewItem :=
  let reviewItems := scanDocs docs []
  let sorted := List.insertionSort itemLE reviewItems
  let keys := importanceKeys sorted
  let randomized := (keys.map fun k =>
    shuffle k (List.insertionSort repLE (groupFor sorted k))).flatten
  randomized.take limit

/-- The fully randomized candidate list of getReviewItemsCore before the
final truncation to `limit`. -/
def randomizedItems (docs : List FeedbackDoc)
    (shuffle : Nat → List ReviewItem → List ReviewItem) : List ReviewItem :=
  let sorted := List.insertionSort itemLE (scanDocs docs [])
  ((importanceKeys sorted).map fun k =>
    shuffle k (List.insertionSort repLE (groupFor sorted k))).flatten

/-- `getReviewItems(userId, limit)`: `fetch` is the result of the
Firestore read of up to 50 recent feedback documents (newest first); a
failed read is caught and yields `[]`, an empty snapshot yields `[]`. -/
def getReviewItems (fetch : Except String (List FeedbackDoc)) (limit : Nat)
    (shuffle : Nat → List ReviewItem → List ReviewItem) : List ReviewItem :=
  match fetch with
  | .error _ => []
  | .ok docs => if docs.isEmpty then [] else getReviewItemsCore docs limit shuffle

/-- `getCurrentWeek()` from services.js: `dayOfYear` is
`Math.floor((now - startOfYear) / 86400000)` and `startDay` the weekday
index of Jan 1; the JS `Math.ceil(n / 7)` on a non-negative integer `n`
is `(n + 6) / 7` in natural division. -/
def getCurrentWeek (dayOfYear startDay : Nat) : Nat :=
  (dayOfYear + startDay + 1 + 6) / 7

/-- Document of the per-user `challenges` collection written by
`logChallengeSent` (timestamp omitted; it is never read). -/
structure ChallengeLogEntry where
  ctype : String
  week : Nat
deriving DecidableEq

/-- `logChallengeSent(userId, challengeType)`: appends one entry whose
`week` field is the current week. -/
def logChallengeSent (challengeType : String) (dayOfYear startDay : Nat)
    (log : List ChallengeLogEntry) : List ChallengeLogEntry :=
  log ++ [⟨challengeType, getCurrentWeek dayOfYear startDay⟩]

/-- `shouldSendChallenge(userId)`: `store` maps a user id to the result
of reading that user's `challenges` collection; a failed read is caught
and the function returns `true` (fail open). -/
def shouldSendChallenge (store : String → Except String (List ChallengeLogEntry))
    (userId : String) (dayOfYear startDay : Nat) : Bool :=
  match store userId with
  | .error _ => true
  | .ok entries =>
    (entries.filter fun e => e.week == getCurrentWeek dayOfYear startDay).length < 4

/-- Outbound message produced by one dispatch. -/
inductive SentMessage where
  | reviewChallenge (items : List ReviewItem)
  | practiceChallenge (text : String)
  | practiceFallback
deriving DecidableEq

/-- `sendPracticeChallenge`: `gen` is the result of `generatePractice`;
on failure the hardcoded generic prompt is sent instead. -/
def sendPracticeChallenge (gen : Except String String) : SentMessage :=
  match gen with
  | .ok text => .practiceChallenge text
  | .error _ => .practiceFallback

/-- Observable outcome of one `sendAutomatedChallenge` call: the message
sent, the `challenges` log afterwards, and the `feedback_items`
documents afterwards. -/
structure DispatchResult where
  sent : SentMessage
  log : List ChallengeLogEntry
  feedbackDocs : List FeedbackDoc
deriving DecidableEq

/-- `sendAutomatedChallenge(userId, bot)`: `isReview` is the coin flip
`Math.random() < 0.5`, `fetchOk` tells whether the selector's store read
succeeds, `gen` the practice-generation result.  The function makes no
write to `feedback_items`, so `feedbackDocs` is returned unchanged; the
log entry type is computed from `isReview`, not from the path taken. -/
def sendAutomatedChallenge (isReview : Bool) (docs : List FeedbackDoc)
    (fetchOk : Bool) (shuffle : Nat → List ReviewItem → List ReviewItem)
    (gen : Except String String) (dayOfYear startDay : Nat)
    (log : List ChallengeLogEntry) : DispatchResult :=
  let fetch : Except String (List FeedbackDoc) :=
    if fetchOk then .ok docs else .error "fetch failed"
  let sent :=
    if isReview then
      let reviewItems := getReviewItems fetch 2 shuffle
      if 0 < reviewItems.length then SentMessage.reviewChallenge reviewItems
      else sendPracticeChallenge gen
    else sendPracticeChallenge gen
  { sent := sent
    log := logChallengeSent (if isReview then "review" else "practice") dayOfYear startDay log
    feedbackDocs := docs }

/-- Update of one phrases array in the repetition-increment loop of
`generateReviewExercise`: the first phrase whose key matches gets its
`repetitions` raised by one; the boolean records whether a match was
found (`findIndex !== -1`). -/
def incPhraseInList (key : String) : List Phrase → List Phrase × Bool
  | [] => ([], false)
  | p :: ps =>
    if phraseKey p == key then
      ({ p with repetitions := p.repetitions + 1 } :: ps, true)
    else
      let r := incPhraseInList key ps
      (p :: r.1, r.2)

/-- Per-item body of the increment loop: scan the documents in snapshot
order, update the first document containing the key (also bumping its
document-level `repetitions` counter) and stop (`break`). -/
def incrementForItem : List FeedbackDoc → String → List FeedbackDoc
  | [], _ => []
  | d :: ds, key =>
    if d.phrases.any fun p => phraseKey p == key then
      { d with
        phrases := (incPhraseInList key d.phrases).1
        repetitions := d.repetitions + 1 } :: ds
    else
      d :: incrementForItem ds key

/-- Sequential reference fold of the per-item increments.  It is not
itself the model of the source's update block (which is concurrent, see
`raceUpdate`); the concurrent block is proved to coincide with this
fold whenever the used candidates lie in pairwise distinct documents. -/
def updateRepetitions (docs : List FeedbackDoc) (items : List ReviewItem) : List FeedbackDoc :=
  items.foldl (fun ds item => incrementForItem ds item.phraseId) docs

/-- The write one `Promise.all` callback issues for its candidate: scan
the snapshot's documents for the first whose phrases contain the key
(`findIndex !== -1` then `break`) and produce the target document
position together with the whole rewritten phrases array, computed from
the snapshot with only that phrase's repetitions raised. -/
def computeWrite : List FeedbackDoc → String → Option (Nat × List Phrase)
  | [], _ => none
  | d :: ds, key =>
    if d.phrases.any fun p => phraseKey p == key then
      some (0, (incPhraseInList key d.phrases).1)
    else
      (computeWrite ds key).map fun w => (w.1 + 1, w.2)

/-- Committing one such write: `doc.ref.update` overwrites the target
(position-i) document's phrases array wholesale and atomically
increments its document-level counter on the then-current store
state. -/
def applyWrite : List FeedbackDoc → Option (Nat × List Phrase) → List FeedbackDoc
  | cur, none => cur
  | [], some _ => []
  | d :: ds, some (0, phs) => { d with phrases := phs, repetitions := d.repetitions + 1 } :: ds
  | d :: ds, some (i + 1, phs) => d :: applyWrite ds (some (i, phs))

/-- Concurrent semantics of the `Promise.all` update block: the
callbacks' writes commit in the order of the item list, and the j-th
callback's snapshot read (`feedbackCollection.get()`) saw the store
after `reads j` earlier commits, clamped to j since a callback reads
before it writes.  `states` accumulates the store versions produced so
far (oldest first), with `cur` the current one. -/
def raceUpdateGo (reads : Nat → Nat) :
    List ReviewItem → List (List FeedbackDoc) → List FeedbackDoc → List FeedbackDoc
  | [], _, cur => cur
  | item :: rest, states, cur =>
    let snapshot := (states ++ [cur]).getD (min (reads states.length) states.length) cur
    raceUpdateGo reads rest (states ++ [cur]) (applyWrite cur (computeWrite snapshot item.phraseId))

/-- The whole concurrently-run update block under a given commit order
of the per-item writes and given snapshot-read points. -/
def raceUpdate (docs : List FeedbackDoc) (order : List ReviewItem) (reads : Nat → Nat) :
    List FeedbackDoc :=
  raceUpdateGo reads order [] docs

/-- Position of the first document containing a key: the write target
of that key's callback. -/
def docIdx? (docs : List FeedbackDoc) (key : String) : Option Nat :=
  (computeWrite docs key).map fun w => w.1

/-- The given candidates lie in pairwise distinct documents. -/
def DistinctDocs (docs : List FeedbackDoc) (items : List ReviewItem) : Prop :=
  ∀ a ∈ items, ∀ b ∈ items, a.phraseId ≠ b.phraseId →
    docIdx? docs a.phraseId ≠ docIdx? docs b.phraseId

instance (docs : List FeedbackDoc) (items : List ReviewItem) :
    Decidable (DistinctDocs docs items) := by
  unfold DistinctDocs
  infer_instance

/-- One feedback record holding two distinct phrases, for exhibiting
the lost-update race of the concurrent block. -/
def raceDocs : List FeedbackDoc :=
  [ { docId := "r1"
      phrases := [⟨"ra", "rb", "improvement", 3, 0⟩, ⟨"rc", "rd", "improvement", 3, 0⟩]
      importance := 3
      repetitions := 0
      categories := ["improvement"]
      ts := 0 } ]

/-- `generateReviewExercise(userId)` (the `/review` path): selects up to
3 review items and, only when generation succeeds, runs the
`Promise.all` repetition-update block.  Its per-item callbacks run
concurrently, so the result is parametrized by the injected
nondeterminism: `schedule` gives the commit order of the writes (any
permutation of the selected items) and `reads` the snapshot-read point
of each callback.  Returns the reply text and the `feedback_items`
documents afterwards. -/
def generateReviewExercise (docs : List FeedbackDoc)
    (shuffle : Nat → List ReviewItem → List ReviewItem)
    (gen : Except String String)
    (schedule : List ReviewItem → List ReviewItem)
    (reads : Nat → Nat) : String × List FeedbackDoc :=
  let reviewItems := getReviewItems (.ok docs) 3 shuffle
  if reviewItems.isEmpty then
    ("Keine Uebungsphrasen gefunden.", docs)
  else
    match gen with
    | .error _ => ("Sorry, there was an error generating a review exercise.", docs)
    | .ok exercise => (exercise, raceUpdate docs (schedule reviewItems) reads)

/-- All phrases stored across the feedback documents, in order. -/
def allPhrases (docs : List FeedbackDoc) : List Phrase :=
  docs.flatMap fun d => d.phrases

/-- Total repetition count of the phrases with a given key in a phrase
list. -/
def repsOf (l : List Phrase) (key : String) : Nat :=
  ((l.filter fun p => phraseKey p == key).map fun p => p.repetitions).sum

/-- Total stored repetition count of the phrases with a given key. -/
def repsForKey (docs : List FeedbackDoc) (key : String) : Nat :=
  repsOf (allPhrases docs) key

/-- One hour in milliseconds (`60 * 60 * 1000`). -/
def hourMs : ℚ := 60 * 60 * 1000

/-- One day in milliseconds (`24 * 60 * 60 * 1000`). -/
def dayMs : ℚ := 24 * 60 * 60 * 1000

/-- Callback closed over by a `setTimeout` in the scheduler; every arm
site re-invokes `sendChallenge(userId)`. -/
inductive TimerHandler where
  | sendChallenge (userId : Nat)
deriving DecidableEq

/-- A timer armed by the firing handler: its delay and its callback. -/
structure ArmedTimer where
  delayMs : ℚ
  handler : TimerHandler
deriving DecidableEq

/-- The timer armed at the end of one `sendChallenge(userId)` firing
(scheduler.js lines 66-96): `elig` is the awaited result of
`shouldSendChallenge` (error = the await rejected), `dispatchErr` a
rejection of the dispatch await, `rand` the `Math.random()` draw used
for the 2-4 day delay.  Both catch branches arm the fixed 1-hour retry
whose callback re-runs the whole fire sequence. -/
def sendChallengeFire (u : Nat) (elig : Except String Bool)
    (dispatchErr : Option String) (rand : ℚ) : ArmedTimer :=
  match elig with
  | .error _ => ⟨hourMs, .sendChallenge u⟩
  | .ok shouldSend =>
    if shouldSend then
      match dispatchErr with
      | some _ => ⟨hourMs, .sendChallenge u⟩
      | none => ⟨(2 + rand * 2) * dayMs, .sendChallenge u⟩
    else ⟨(2 + rand * 2) * dayMs, .sendChallenge u⟩

/-- State of a `ChallengeScheduler` instance plus the runtime facts the
claims are about: `active` is the `activeUsers` set (insertion order),
`schedMap` the `scheduledChallenges` map (`userId -> timeout id`),
`pending` the timeouts currently armed in the runtime (`id`, user of the
closed-over callback), `inflight` the users whose firing handler is
currently running, and `nextId` a fresh timeout-id supply. -/
structure SchedState where
  active : List Nat
  schedMap : List (Nat × Nat)
  pending : List (Nat × Nat)
  inflight : List Nat
  nextId : Nat
deriving DecidableEq

/-- Scheduler state right after `new ChallengeScheduler(bot)`. -/
def initState : SchedState := ⟨[], [], [], [], 0⟩

/-- `Map.prototype.get` on the assoc-list model. -/
def mapGet? (m : List (Nat × Nat)) (u : Nat) : Option Nat :=
  (m.find? fun e => e.1 == u).map fun e => e.2

/-- `Map.prototype.set` on the assoc-list model (replace or append). -/
def mapSet (m : List (Nat × Nat)) (u v : Nat) : List (Nat × Nat) :=
  if m.any fun e => e.1 == u then
    m.map fun e => if e.1 == u then (u, v) else e
  else m ++ [(u, v)]

/-- `Map.prototype.delete` on the assoc-list model. -/
def mapDelete (m : List (Nat × Nat)) (u : Nat) : List (Nat × Nat) :=
  m.filter fun e => e.1 ≠ u

/-- `clearTimeout(id)`: the armed timeout with that id (if any) is
disarmed and its callback will never run. -/
def cancelTimer (pending : List (Nat × Nat)) (id : Nat) : List (Nat × Nat) :=
  pending.filter fun t => t.1 ≠ id

/-- `scheduleNextChallenge(userId)`: clear a previously mapped timeout,
arm a fresh one and record it in the map. -/
def scheduleNextChallenge (s : SchedState) (u : Nat) : SchedState :=
  let p :=
    match mapGet? s.schedMap u with
    | some id => cancelTimer s.pending id
    | none => s.pending
  { s with
    pending := p ++ [(s.nextId, u)]
    schedMap := mapSet s.schedMap u s.nextId
    nextId := s.nextId + 1 }

/-- `addUser(userId)`: a no-op when already active. -/
def addUser (s : SchedState) (u : Nat) : SchedState :=
  if u ∈ s.active then s
  else scheduleNextChallenge { s with active := s.active ++ [u] } u

/-- `removeUser(userId)`: drop from the active set, clear the mapped
timeout, drop the map entry; a no-op when inactive. -/
def removeUser (s : SchedState) (u : Nat) : SchedState :=
  if u ∈ s.active then
    match mapGet? s.schedMap u with
    | some id =>
      { s with
        active := s.active.filter fun v => v ≠ u
        pending := cancelTimer s.pending id
        schedMap := mapDelete s.schedMap u }
    | none => { s with active := s.active.filter fun v => v ≠ u }
  else s

/-- `start()`: re-schedule every currently active user. -/
def startScheduler (s : SchedState) : SchedState :=
  s.active.foldl scheduleNextChallenge s

/-- `stop()`: clear every timeout recorded in the map, then clear the
map; the active set is untouched. -/
def stopScheduler (s : SchedState) : SchedState :=
  { s with
    pending := s.schedMap.foldl (fun p e => cancelTimer p e.2) s.pending
    schedMap := [] }

/-- An armed timeout reaches its instant: the runtime disarms it and
starts its `sendChallenge(userId)` callback (now in flight). -/
def fireTimer (s : SchedState) (id u : Nat) : SchedState :=
  if (id, u) ∈ s.pending then
    { s with
      pending := s.pending.erase (id, u)
      inflight := s.inflight ++ [u] }
  else s

/-- An in-flight `sendChallenge(userId)` handler finishes (any of its
three paths) and arms the next timeout, recording it in the map
unconditionally — scheduler.js lines 78-95 never consult `activeUsers`
before `this.scheduledChallenges.set(userId, ...)`. -/
def completeFire (s : SchedState) (u : Nat) : SchedState :=
  if u ∈ s.inflight then
    { s with
      inflight := s.inflight.erase u
      pending := s.pending ++ [(s.nextId, u)]
      schedMap := mapSet s.schedMap u s.nextId
      nextId := s.nextId + 1 }
  else s

/-- Result shape of `getStatus()`. -/
structure SchedStatus where
  activeUsers : List Nat
  scheduledChallenges : Nat
  totalUsers : Nat
deriving DecidableEq

/-- `getStatus()`. -/
def getStatus (s : SchedState) : SchedStatus :=
  ⟨s.active, s.schedMap.length, s.active.length⟩

/-- Public scheduler operations performed while no firing is in flight
(the operations of claim C7). -/
inductive SchedOp where
  | add (u : Nat)
  | remove (u : Nat)
  | start
deriving DecidableEq

/-- Apply one public operation. -/
def applyOp (s : SchedState) : SchedOp → SchedState
  | .add u => addUser s u
  | .remove u => removeUser s u
  | .start => startScheduler s

/-- Run a sequence of public operations from the initial state. -/
def runOps (ops : List SchedOp) : SchedState := ops.foldl applyOp initState

/-- Events of the concurrent model: public operations interleaved with
the steps of in-flight firings (claim C8). -/
inductive SchedEvent where
  | add (u : Nat)
  | remove (u : Nat)
  | timerFires (id u : Nat)
  | handlerCompletes (u : Nat)
deriving DecidableEq

/-- Apply one interleaving event. -/
def applyEvent (s : SchedState) : SchedEvent → SchedState
  | .add u => addUser s u
  | .remove u => removeUser s u
  | .timerFires id u => fireTimer s id u
  | .handlerCompletes u => completeFire s u

/-- Run a sequence of interleaving events from the initial state. -/
def runEvents (evs : List SchedEvent) : SchedState := evs.foldl applyEvent initState

/-- `message.split('\n')` on the character-list model of JS strings
(also maps the empty string to `[""]`, as in JS). -/
def splitLinesNl : List Char → List (List Char)
  | [] => [[]]
  | c :: cs =>
    if c = '\n' then [] :: splitLinesNl cs
    else
      match splitLinesNl cs with
      | [] => [[c]]
      | l :: ls => (c :: l) :: ls

/-- Loop of `splitMessage` over the lines, threading `chunks` and
`currentChunk`; the trailing conditional push is the
`if (currentChunk) chunks.push(currentChunk)` epilogue. -/
def splitMessageGo (maxLength : Nat) : List (List Char) → List (List Char) → List Char → List (List Char)
  | [], chunks, cur => if cur.isEmpty then chunks else chunks ++ [cur]
  | line :: rest, chunks, cur =>
    if maxLength < cur.length + line.length + 1 then
      splitMessageGo maxLength rest (chunks ++ [cur]) (line ++ ['\n'])
    else
      splitMessageGo maxLength rest chunks (cur ++ line ++ ['\n'])

/-- `splitMessage(message, maxLength)` from utils.js; a falsy (empty)
message returns no chunks. -/
def splitMessage (message : List Char) (maxLength : Nat) : List (List Char) :=
  if message.isEmpty then [] else splitMessageGo maxLength (splitLinesNl message) [] []

/-- Feedback document with a single phrase, as used in the importance
scenario of claim C4. -/
def scenDoc (i orig impr : String) (imp : Nat) : FeedbackDoc :=
  { docId := i
    phrases := [⟨orig, impr, "improvement", imp, 0⟩]
    importance := 3
    repetitions := 0
    categories := ["improvement"]
    ts := 0 }

/-- Six feedback records whose phrases have importances
`[5, 3, 3, 1, 5, 2]` and zero repetitions. -/
def scenarioDocs : List FeedbackDoc :=
  [ scenDoc "d1" "a1" "b1" 5
  , scenDoc "d2" "a2" "b2" 3
  , scenDoc "d3" "a3" "b3" 3
  , scenDoc "d4" "a4" "b4" 1
  , scenDoc "d5" "a5" "b5" 5
  , scenDoc "d6" "a6" "b6" 2 ]

/-- The first importance-5 candidate of the scenario. -/
def scenItemA : ReviewItem := buildItem (scenDoc "d1" "a1" "b1" 5) ⟨"a1", "b1", "improvement", 5, 0⟩

/-- The second importance-5 candidate of the scenario. -/
def scenItemE : ReviewItem := buildItem (scenDoc "d5" "a5" "b5" 5) ⟨"a5", "b5", "improvement", 5, 0⟩

/-- The first importance-3 candidate of the scenario. -/
def scenItemB : ReviewItem := buildItem (scenDoc "d2" "a2" "b2" 3) ⟨"a2", "b2", "improvement", 3, 0⟩

/-- The second importance-3 candidate of the scenario. -/
def scenItemC : ReviewItem := buildItem (scenDoc "d3" "a3" "b3" 3) ⟨"a3", "b3", "improvement", 3, 0⟩

/-- The importance-1 candidate of the scenario. -/
def scenItemD : ReviewItem := buildItem (scenDoc "d4" "a4" "b4" 1) ⟨"a4", "b4", "improvement", 1, 0⟩

/-- The importance-2 candidate of the scenario. -/
def scenItemF : ReviewItem := buildItem (scenDoc "d6" "a6" "b6" 2) ⟨"a6", "b6", "improvement", 2, 0⟩

/-- Two feedback records sharing one phrase key, newest first, for
exercising the first-occurrence deduplication. -/
def dupDocs : List FeedbackDoc :=
  [ { docId := "n1"
      phrases := [⟨"x", "y", "improvement", 5, 0⟩]
      importance := 3
      repetitions := 0
      categories := ["improvement"]
      ts := 1 }
  , { docId := "n2"
      phrases := [⟨"x", "y", "improvement", 3, 2⟩, ⟨"p", "q", "grammar", 2, 1⟩]
      importance := 3
      repetitions := 0
      categories := ["grammar"]
      ts := 0 } ]

/-- Invariant of scheduler states reachable through the public
operations: the active set and the map keys are duplicate-free and
coincide, map values are duplicate-free and below the fresh-id supply,
and the armed timeouts are exactly the mapped (id, user) pairs. -/
def SchedInv (s : SchedState) : Prop :=
  s.active.Nodup ∧
  (s.schedMap.map fun e => e.1).Nodup ∧
  (s.schedMap.map fun e => e.2).Nodup ∧
  (∀ u, u ∈ s.active ↔ u ∈ s.schedMap.map fun e => e.1) ∧
  (∀ e ∈ s.schedMap, e.2 < s.nextId) ∧
  s.pending.Perm (s.schedMap.map fun e => (e.2, e.1))

/-! Helper lemmas for splitMessage (claim C10). -/

/-- Concatenating the chunks produced by the splitMessage loop yields the
already accumulated text followed by every remaining line with a newline
re-appended. -/
theorem splitMessageGo_flatten (m : Nat) (lines : List (List Char)) :
    ∀ (chunks : List (List Char)) (cur : List Char),
      (splitMessageGo m lines chunks cur).flatten =
        chunks.flatten ++ cur ++ (lines.map fun l => l ++ ['\n']).flatten := by
  induction lines with
  | nil =>
    intro chunks cur
    by_cases h : cur.isEmpty
    · have hc : cur = [] := by simpa [List.isEmpty_iff] using h
      simp [splitMessageGo, h, hc]
    · simp [splitMessageGo, h]
  | cons line rest ih =>
    intro chunks cur
    by_cases h : m < cur.length + line.length + 1
    · simp only [splitMessageGo, if_pos h]
      rw [ih]
      simp [List.append_assoc]
    · simp only [splitMessageGo, if_neg h]
      rw [ih]
      simp [List.append_assoc]

/-- The JS split on a newline never produces an empty line list. -/
theorem splitLinesNl_ne_nil (l : List Char) : splitLinesNl l ≠ [] := by
  cases l with
  | nil => simp [splitLinesNl]
  | cons c cs =>
    by_cases h : c = '\n'
    · simp [splitLinesNl, h]
    · simp only [splitLinesNl, if_neg h]
      cases splitLinesNl cs <;> simp

/-- Re-appending a newline to every line of the split and concatenating
restores the message with one extra trailing newline. -/
theorem splitLinesNl_join (msg : List Char) :
    ((splitLinesNl msg).map fun l => l ++ ['\n']).flatten = msg ++ ['\n'] := by
  induction msg with
  | nil => rfl
  | cons c cs ih =>
    by_cases h : c = '\n'
    · subst h
      simp only [splitLinesNl, if_pos rfl, List.map_cons, List.flatten_cons]
      simpa using ih
    · simp only [splitLinesNl, if_neg h]
      cases hs : splitLinesNl cs with
      | nil => exact absurd hs (splitLinesNl_ne_nil cs)
      | cons l ls =>
        rw [hs] at ih
        simp only [List.map_cons, List.flatten_cons] at ih ⊢
        simp only [List.cons_append, List.append_assoc] at ih ⊢
        rw [ih]

/-- Every chunk the splitMessage loop emits stays within the limit,
provided every remaining line fits with its newline and the running
chunk does. -/
theorem splitMessageGo_length_le (m : Nat) (lines : List (List Char)) :
    ∀ (chunks : List (List Char)) (cur : List Char),
      (∀ line ∈ lines, line.length + 1 ≤ m) →
      (∀ ch ∈ chunks, ch.length ≤ m) → cur.length ≤ m →
      ∀ ch ∈ splitMessageGo m lines chunks cur, ch.length ≤ m := by
  induction lines with
  | nil =>
    intro chunks cur _ hc hcur ch hch
    by_cases h : cur.isEmpty
    · rw [splitMessageGo, if_pos h] at hch
      exact hc ch hch
    · rw [splitMessageGo, if_neg h] at hch
      rcases List.mem_append.1 hch with hch | hch
      · exact hc ch hch
      · rw [List.mem_singleton.1 hch]; exact hcur
  | cons line rest ih =>
    intro chunks cur hl hc hcur ch hch
    by_cases h : m < cur.length + line.length + 1
    · rw [splitMessageGo, if_pos h] at hch
      refine ih (chunks ++ [cur]) (line ++ ['\n']) ?_ ?_ ?_ ch hch
      · intro l hlm; exact hl l (List.mem_cons_of_mem _ hlm)
      · intro c hcm
        rcases List.mem_append.1 hcm with hcm | hcm
        · exact hc c hcm
        · rw [List.mem_singleton.1 hcm]; exact hcur
      · simpa using hl line (List.mem_cons_self _ _)
    · rw [splitMessageGo, if_neg h] at hch
      refine ih chunks (cur ++ line ++ ['\n']) ?_ hc ?_ ch hch
      · intro l hlm; exact hl l (List.mem_cons_of_mem _ hlm)
      · have := Nat.le_of_not_lt h
        simpa [List.length_append] using this

/-! Helper lemmas for the Review Selector (claims C3, C4, C5): the
nested scan loops are first-occurrence deduplication, and the
grouped-and-shuffled pipeline permutes the deduplicated list. -/

/-- The inner phrase scan is first-occurrence dedup of the document's
built items, threading the seen set. -/
theorem scanPhrases_eq (d : FeedbackDoc) (ps : List Phrase) (seen : List String) :
    scanPhrases d ps seen =
      (dedupByKey (ps.map (buildItem d)) seen, seenAfter (ps.map (buildItem d)) seen) := by
  induction ps generalizing seen with
  | nil => rfl
  | cons p pt ih =>
    have hb : (buildItem d p).phraseId = phraseKey p := rfl
    by_cases h : phraseKey p ∈ seen
    · simp only [scanPhrases, List.map_cons, dedupByKey, seenAfter, hb, if_pos h]
      exact ih seen
    · simp only [scanPhrases, List.map_cons, dedupByKey, seenAfter, hb, if_neg h]
      rw [ih]

/-- Deduplication distributes over append via the seen set. -/
theorem dedupByKey_append (a b : List ReviewItem) (seen : List String) :
    dedupByKey (a ++ b) seen = dedupByKey a seen ++ dedupByKey b (seenAfter a seen) := by
  induction a generalizing seen with
  | nil => rfl
  | cons x xs ih =>
    by_cases h : x.phraseId ∈ seen
    · simp only [List.cons_append, List.append_eq, dedupByKey, seenAfter, if_pos h]
      exact ih seen
    · simp only [List.cons_append, List.append_eq, dedupByKey, seenAfter, if_neg h]
      rw [ih]

/-- The document scan of getReviewItems equals first-occurrence dedup of
the flattened candidate list. -/
theorem scanDocs_eq (docs : List FeedbackDoc) (seen : List String) :
    scanDocs docs seen = dedupByKey (flatItems docs) seen := by
  induction docs generalizing seen with
  | nil => rfl
  | cons d ds ih =>
    show (scanPhrases d d.phrases seen).1 ++ scanDocs ds (scanPhrases d d.phrases seen).2
        = dedupByKey (flatItems (d :: ds)) seen
    rw [scanPhrases_eq]
    show dedupByKey (List.map (buildItem d) d.phrases) seen ++
        scanDocs ds (seenAfter (List.map (buildItem d) d.phrases) seen)
        = dedupByKey (flatItems (d :: ds)) seen
    rw [ih, ← dedupByKey_append]
    have hf : flatItems (d :: ds) = List.map (buildItem d) d.phrases ++ flatItems ds := by
      simp [flatItems]
    rw [hf]

/-- Elements surviving dedup come from the input list. -/
theorem mem_of_mem_dedupByKey {l : List ReviewItem} {seen : List String} {x : ReviewItem}
    (h : x ∈ dedupByKey l seen) : x ∈ l := by
  induction l generalizing seen with
  | nil => simp [dedupByKey] at h
  | cons y ys ih =>
    by_cases hy : y.phraseId ∈ seen
    · rw [dedupByKey, if_pos hy] at h
      exact List.mem_cons_of_mem _ (ih h)
    · rw [dedupByKey, if_neg hy] at h
      rcases List.mem_cons.1 h with h | h
      · rw [h]; exact List.mem_cons_self _ _
      · exact List.mem_cons_of_mem _ (ih h)

/-- Elements surviving dedup have keys outside the seen set. -/
theorem key_not_seen_of_mem_dedupByKey {l : List ReviewItem} {seen : List String}
    {x : ReviewItem} (h : x ∈ dedupByKey l seen) : x.phraseId ∉ seen := by
  induction l generalizing seen with
  | nil => simp [dedupByKey] at h
  | cons y ys ih =>
    by_cases hy : y.phraseId ∈ seen
    · rw [dedupByKey, if_pos hy] at h
      exact ih h
    · rw [dedupByKey, if_neg hy] at h
      rcases List.mem_cons.1 h with h | h
      · rw [h]; exact hy
      · intro hx
        exact ih h (List.mem_cons_of_mem _ hx)

/-- Dedup produces pairwise distinct keys. -/
theorem nodup_keys_dedupByKey (l : List ReviewItem) (seen : List String) :
    ((dedupByKey l seen).map fun x => x.phraseId).Nodup := by
  induction l generalizing seen with
  | nil => simp [dedupByKey]
  | cons y ys ih =>
    by_cases hy : y.phraseId ∈ seen
    · rw [dedupByKey, if_pos hy]
      exact ih seen
    · rw [dedupByKey, if_neg hy]
      refine List.Nodup.cons ?_ (ih (y.phraseId :: seen))
      intro hmem
      rcases List.mem_map.1 hmem with ⟨z, hz, hkey⟩
      exact key_not_seen_of_mem_dedupByKey hz (hkey ▸ List.mem_cons_self _ _)

/-- A surviving element is the first occurrence of its key in the input:
searching the raw list for its key finds exactly it. -/
theorem find?_of_mem_dedupByKey {l : List ReviewItem} {seen : List String}
    {x : ReviewItem} (h : x ∈ dedupByKey l seen) :
    l.find? (fun y => y.phraseId == x.phraseId) = some x := by
  induction l generalizing seen with
  | nil => simp [dedupByKey] at h
  | cons y ys ih =>
    by_cases hy : y.phraseId ∈ seen
    · rw [dedupByKey, if_pos hy] at h
      have hne : (y.phraseId == x.phraseId) = false := by
        refine beq_eq_false_iff_ne.2 ?_
        intro hk
        exact key_not_seen_of_mem_dedupByKey h (hk ▸ hy)
      rw [List.find?_cons_of_neg _ (by simp [hne]), ih h]
    · rw [dedupByKey, if_neg hy] at h
      rcases List.mem_cons.1 h with h | h
      · rw [h]
        exact List.find?_cons_of_pos _ (by simp)
      · have hne : (y.phraseId == x.phraseId) = false := by
          refine beq_eq_false_iff_ne.2 ?_
          intro hk
          exact key_not_seen_of_mem_dedupByKey h (hk ▸ List.mem_cons_self _ _)
        rw [List.find?_cons_of_neg _ (by simp [hne]), ih h]

/-- Membership in the descending insertion. -/
theorem mem_insertDescNat {a k : Nat} {l : List Nat} :
    a ∈ insertDescNat k l ↔ a = k ∨ a ∈ l := by
  induction l with
  | nil => simp [insertDescNat]
  | cons x xs ih =>
    by_cases h : x ≤ k
    · rw [insertDescNat, if_pos h]
      simp
    · rw [insertDescNat, if_neg h]
      simp only [List.mem_cons, ih]
      tauto

/-- Membership in the descending sort. -/
theorem mem_sortDescNat {a : Nat} {l : List Nat} : a ∈ sortDescNat l ↔ a ∈ l := by
  induction l with
  | nil => simp [sortDescNat]
  | cons x xs ih =>
    show a ∈ insertDescNat x (sortDescNat xs) ↔ _
    rw [mem_insertDescNat, ih]
    simp

/-- Descending insertion of a fresh key preserves distinctness. -/
theorem nodup_insertDescNat {k : Nat} {l : List Nat} (hk : k ∉ l) (hl : l.Nodup) :
    (insertDescNat k l).Nodup := by
  induction l with
  | nil => simp [insertDescNat]
  | cons x xs ih =>
    rcases List.nodup_cons.1 hl with ⟨hx, hxs⟩
    by_cases h : x ≤ k
    · rw [insertDescNat, if_pos h]
      exact List.nodup_cons.2 ⟨hk, hl⟩
    · rw [insertDescNat, if_neg h]
      refine List.nodup_cons.2 ⟨?_, ih (fun hm => hk (List.mem_cons_of_mem _ hm)) hxs⟩
      rw [mem_insertDescNat]
      rintro (rfl | hm)
      · exact h (le_refl x)
      · exact hx hm

/-- The descending sort of a distinct list is distinct. -/
theorem nodup_sortDescNat {l : List Nat} (hl : l.Nodup) : (sortDescNat l).Nodup := by
  induction l with
  | nil => simp [sortDescNat]
  | cons x xs ih =>
    rcases List.nodup_cons.1 hl with ⟨hx, hxs⟩
    exact nodup_insertDescNat (fun hm => hx (mem_sortDescNat.1 hm)) (ih hxs)

/-- Descending insertion preserves descending sortedness. -/
theorem sorted_insertDescNat {k : Nat} {l : List Nat} (hl : l.Sorted (· ≥ ·)) :
    (insertDescNat k l).Sorted (· ≥ ·) := by
  induction l with
  | nil => simp [insertDescNat]
  | cons x xs ih =>
    rcases List.sorted_cons.1 hl with ⟨hx, hxs⟩
    by_cases h : x ≤ k
    · rw [insertDescNat, if_pos h]
      refine List.sorted_cons.2 ⟨?_, hl⟩
      intro b hb
      rcases List.mem_cons.1 hb with rfl | hb
      · exact h
      · exact le_trans (hx b hb) h
    · rw [insertDescNat, if_neg h]
      refine List.sorted_cons.2 ⟨?_, ih hxs⟩
      intro b hb
      rcases mem_insertDescNat.1 hb with rfl | hb
      · exact le_of_not_le h
      · exact hx b hb

/-- The descending sort is sorted descending. -/
theorem sorted_sortDescNat (l : List Nat) : (sortDescNat l).Sorted (· ≥ ·) := by
  induction l with
  | nil => simp [sortDescNat]
  | cons x xs ih => exact sorted_insertDescNat ih

/-- The grouping keys are distinct. -/
theorem nodup_importanceKeys (l : List ReviewItem) : (importanceKeys l).Nodup :=
  nodup_sortDescNat (List.nodup_dedup _)

/-- The grouping keys are exactly the importances occurring in the list. -/
theorem mem_importanceKeys {k : Nat} {l : List ReviewItem} :
    k ∈ importanceKeys l ↔ k ∈ l.map fun x => x.importance :=
  mem_sortDescNat.trans (List.mem_dedup)

/-- The grouping keys are sorted descending. -/
theorem sorted_importanceKeys (l : List ReviewItem) :
    (importanceKeys l).Sorted (· ≥ ·) :=
  sorted_sortDescNat _

/-- Pointwise permutations of the groups permute the concatenation. -/
theorem flatten_map_perm {keys : List Nat} {f g : Nat → List ReviewItem}
    (h : ∀ k ∈ keys, (f k).Perm (g k)) :
    ((keys.map f).flatten).Perm ((keys.map g).flatten) := by
  induction keys with
  | nil => simp
  | cons k ks ih =>
    simp only [List.map_cons, List.flatten_cons]
    exact (h k (List.mem_cons_self _ _)).append
      (ih fun k' hk' => h k' (List.mem_cons_of_mem _ hk'))

/-- Splitting a list into its groups along a duplicate-free covering key
list and concatenating permutes the list. -/
theorem perm_flatten_groups (keys : List Nat) (l : List ReviewItem)
    (hnd : keys.Nodup) (hcov : ∀ x ∈ l, x.importance ∈ keys) :
    ((keys.map fun k => groupFor l k).flatten).Perm l := by
  induction keys generalizing l with
  | nil =>
    have hl : l = [] := by
      cases l with
      | nil => rfl
      | cons x xs => exact absurd (hcov x (List.mem_cons_self _ _)) (by simp)
    simp [hl]
  | cons k ks ih =>
    simp only [List.map_cons, List.flatten_cons]
    rcases List.nodup_cons.1 hnd with ⟨hk, hks⟩
    have hgroups : ∀ k' ∈ ks,
        groupFor l k' = groupFor (l.filter fun x => !(x.importance == k)) k' := by
      intro k' hk'
      have hne : k' ≠ k := fun h => hk (h ▸ hk')
      rw [groupFor, groupFor, List.filter_filter]
      refine List.filter_congr ?_
      intro x _
      by_cases hxk : x.importance = k'
      · simp [hxk, hne]
      · simp [hxk]
    have h1 : ((ks.map fun k' => groupFor l k').flatten)
        = ((ks.map fun k' => groupFor (l.filter fun x => !(x.importance == k)) k').flatten) :=
      congrArg List.flatten (List.map_congr_left hgroups)
    rw [h1]
    have hcov' : ∀ x ∈ l.filter fun x => !(x.importance == k), x.importance ∈ ks := by
      intro x hx
      rcases List.mem_filter.1 hx with ⟨hxl, hxk⟩
      have hne : x.importance ≠ k := by simpa using hxk
      rcases List.mem_cons.1 (hcov x hxl) with h | h
      · exact absurd h hne
      · exact h
    have h2 := ih (l.filter fun x => !(x.importance == k)) hks hcov'
    refine (List.Perm.append_left (groupFor l k) h2).trans ?_
    exact List.filter_append_perm (fun x => x.importance == k) l

/-- The randomized concatenation of getReviewItemsCore permutes the
deduplicated scan for every permutation-valued shuffle. -/
theorem randomizedItems_perm (docs : List FeedbackDoc)
    (shuffle : Nat → List ReviewItem → List ReviewItem)
    (hsh : ∀ k l, (shuffle k l).Perm l) :
    (randomizedItems docs shuffle).Perm (scanDocs docs []) := by
  have hsorted := List.perm_insertionSort itemLE (scanDocs docs [])
  have h1 : (randomizedItems docs shuffle).Perm
      (((importanceKeys (List.insertionSort itemLE (scanDocs docs []))).map fun k =>
        groupFor (List.insertionSort itemLE (scanDocs docs [])) k).flatten) := by
    refine flatten_map_perm ?_
    intro k _
    exact (hsh k _).trans (List.perm_insertionSort repLE _)
  have h2 : (((importanceKeys (List.insertionSort itemLE (scanDocs docs []))).map fun k =>
      groupFor (List.insertionSort itemLE (scanDocs docs [])) k).flatten).Perm
      (List.insertionSort itemLE (scanDocs docs [])) := by
    refine perm_flatten_groups _ _ (nodup_importanceKeys _) ?_
    intro x hx
    exact mem_importanceKeys.2 (List.mem_map_of_mem _ hx)
  exact (h1.trans h2).trans hsorted

/-- getReviewItems truncates the randomized concatenation. -/
theorem getReviewItems_ok_eq (docs : List FeedbackDoc) (limit : Nat)
    (shuffle : Nat → List ReviewItem → List ReviewItem) (hd : docs.isEmpty = false) :
    getReviewItems (.ok docs) limit shuffle = (randomizedItems docs shuffle).take limit := by
  rw [getReviewItems, if_neg (by simp [hd])]
  rfl

/-- Every selector output item survives the first-occurrence dedup of
the flattened candidates. -/
theorem mem_dedup_of_mem_getReviewItems {docs : List FeedbackDoc} {limit : Nat}
    {shuffle : Nat → List ReviewItem → List ReviewItem}
    (hsh : ∀ k l, (shuffle k l).Perm l) {x : ReviewItem}
    (hx : x ∈ getReviewItems (.ok docs) limit shuffle) :
    x ∈ dedupByKey (flatItems docs) [] := by
  by_cases hd : docs.isEmpty
  · rw [getReviewItems, if_pos (by simp [hd])] at hx
    simp at hx
  · rw [getReviewItems_ok_eq docs limit shuffle (by simpa using hd)] at hx
    have hperm := randomizedItems_perm docs shuffle hsh
    rw [scanDocs_eq] at hperm
    exact hperm.subset (List.mem_of_mem_take hx)

/-- The selector output has pairwise distinct keys. -/
theorem getReviewItems_keys_nodup (docs : List FeedbackDoc) (limit : Nat)
    (shuffle : Nat → List ReviewItem → List ReviewItem)
    (hsh : ∀ k l, (shuffle k l).Perm l) :
    ((getReviewItems (.ok docs) limit shuffle).map fun x => x.phraseId).Nodup := by
  by_cases hd : docs.isEmpty
  · rw [getReviewItems, if_pos (by simp [hd])]
    simp
  · have hperm := randomizedItems_perm docs shuffle hsh
    rw [scanDocs_eq] at hperm
    have hnodup : ((randomizedItems docs shuffle).map fun x => x.phraseId).Nodup :=
      ((hperm.map fun x => x.phraseId).nodup_iff).2 (nodup_keys_dedupByKey _ _)
    rw [getReviewItems_ok_eq docs limit shuffle (by simpa using hd), List.map_take]
    exact hnodup.sublist (List.take_sublist _ _)

/-- A constant list of naturals is sorted descending. -/
theorem sorted_of_all_eq {L : List Nat} {k : Nat} (h : ∀ a ∈ L, a = k) :
    L.Sorted (· ≥ ·) := by
  induction L with
  | nil => simp
  | cons x xs ih =>
    refine List.sorted_cons.2 ⟨?_, ih fun a ha => h a (List.mem_cons_of_mem _ ha)⟩
    intro b hb
    rw [h x (List.mem_cons_self _ _), h b (List.mem_cons_of_mem _ hb)]

/-- Concatenating groups of constant importance along a descending key
list yields an importance sequence sorted descending. -/
theorem sorted_flatten_groups (keys : List Nat) (f : Nat → List ReviewItem)
    (hconst : ∀ k ∈ keys, ∀ x ∈ f k, x.importance = k)
    (hsorted : keys.Sorted (· ≥ ·)) :
    (((keys.map f).flatten).map fun x => x.importance).Sorted (· ≥ ·) := by
  induction keys with
  | nil => simp
  | cons k ks ih =>
    rcases List.sorted_cons.1 hsorted with ⟨hk, hks⟩
    simp only [List.map_cons, List.flatten_cons, List.map_append]
    refine List.pairwise_append.2 ⟨?_, ?_, ?_⟩
    · refine sorted_of_all_eq (k := k) fun a ha => ?_
      rcases List.mem_map.1 ha with ⟨x, hx, rfl⟩
      exact hconst k (List.mem_cons_self _ _) x hx
    · exact ih (fun k' hk' x hx => hconst k' (List.mem_cons_of_mem _ hk') x hx) hks
    · intro a ha b hb
      rcases List.mem_map.1 ha with ⟨x, hx, rfl⟩
      rcases List.mem_map.1 hb with ⟨y, hy, rfl⟩
      rcases List.mem_flatten.1 hy with ⟨L, hL, hyL⟩
      rcases List.mem_map.1 hL with ⟨k', hk', rfl⟩
      rw [hconst k (List.mem_cons_self _ _) x hx,
          hconst k' (List.mem_cons_of_mem _ hk') y hyL]
      exact hk k' hk'

/-- The randomized concatenation is sorted by importance descending for
every permutation-valued shuffle. -/
theorem randomizedItems_sorted (docs : List FeedbackDoc)
    (shuffle : Nat → List ReviewItem → List ReviewItem)
    (hsh : ∀ k l, (shuffle k l).Perm l) :
    ((randomizedItems docs shuffle).map fun x => x.importance).Sorted (· ≥ ·) := by
  simp only [randomizedItems]
  refine sorted_flatten_groups _ _ ?_ (sorted_importanceKeys _)
  intro k _ x hx
  have hx1 : x ∈ List.insertionSort repLE
      (groupFor (List.insertionSort itemLE (scanDocs docs [])) k) := (hsh k _).subset hx
  have hx2 : x ∈ groupFor (List.insertionSort itemLE (scanDocs docs [])) k :=
    (List.perm_insertionSort repLE _).subset hx1
  have hx3 := List.mem_filter.1 hx2
  simpa using hx3.2

/-! Helper lemmas for the repetition-increment loop of
generateReviewExercise (claim C5). -/

/-- Incrementing rewrites only the repetition field: the key sequence of
the phrase list is unchanged. -/
theorem keys_incPhraseInList (key : String) (l : List Phrase) :
    (incPhraseInList key l).1.map phraseKey = l.map phraseKey := by
  induction l with
  | nil => rfl
  | cons p ps ih =>
    cases hb : (phraseKey p == key) with
    | true =>
      have hpk : p.original ++ "-" ++ p.improved = key := by simpa [phraseKey] using hb
      simp [incPhraseInList, phraseKey, hpk]
    | false => simp [incPhraseInList, hb, ih]

/-- Appending behind a part containing the key: the increment happens in
the first part and the second is untouched. -/
theorem incPhraseInList_append_found {key : String} {l₁ : List Phrase} (l₂ : List Phrase)
    (h : l₁.any (fun p => phraseKey p == key) = true) :
    (incPhraseInList key (l₁ ++ l₂)).1 = (incPhraseInList key l₁).1 ++ l₂ := by
  induction l₁ with
  | nil => simp at h
  | cons p ps ih =>
    by_cases hp : (phraseKey p == key) = true
    · simp [incPhraseInList, hp]
    · rw [List.any_cons] at h
      have hpf : (phraseKey p == key) = false := by simpa using hp
      rw [hpf, Bool.false_or] at h
      simp [incPhraseInList, hp, ih h]

/-- Appending behind a part missing the key: the first part is untouched
and the increment recurses into the second. -/
theorem incPhraseInList_append_not_found {key : String} {l₁ : List Phrase} (l₂ : List Phrase)
    (h : l₁.any (fun p => phraseKey p == key) = false) :
    (incPhraseInList key (l₁ ++ l₂)).1 = l₁ ++ (incPhraseInList key l₂).1 := by
  induction l₁ with
  | nil => rfl
  | cons p ps ih =>
    rw [List.any_cons, Bool.or_eq_false_iff] at h
    have hp : ¬((phraseKey p == key) = true) := by simp [h.1]
    simp [incPhraseInList, hp, ih h.2]

/-- The phrases of a cons of documents. -/
theorem allPhrases_cons (d : FeedbackDoc) (ds : List FeedbackDoc) :
    allPhrases (d :: ds) = d.phrases ++ allPhrases ds := by
  simp [allPhrases]

/-- The per-item update of the increment loop, seen on the flattened
phrase list, increments the first phrase with the key. -/
theorem allPhrases_incrementForItem (docs : List FeedbackDoc) (key : String) :
    allPhrases (incrementForItem docs key) = (incPhraseInList key (allPhrases docs)).1 := by
  induction docs with
  | nil => rfl
  | cons d ds ih =>
    by_cases h : (d.phrases.any fun p => phraseKey p == key) = true
    · rw [incrementForItem, if_pos h, allPhrases_cons, allPhrases_cons,
          incPhraseInList_append_found _ h]
    · have hf : (d.phrases.any fun p => phraseKey p == key) = false := by simpa using h
      rw [incrementForItem, if_neg h, allPhrases_cons, allPhrases_cons,
          incPhraseInList_append_not_found _ hf, ih]

/-- Incrementing a present key raises its repetition total by one. -/
theorem repsOf_incPhraseInList {key : String} {l : List Phrase}
    (h : l.any (fun p => phraseKey p == key) = true) :
    repsOf (incPhraseInList key l).1 key = repsOf l key + 1 := by
  induction l with
  | nil => simp at h
  | cons p ps ih =>
    cases hb : (phraseKey p == key) with
    | true =>
      have hkp : phraseKey { p with repetitions := p.repetitions + 1 } = phraseKey p := rfl
      simp [incPhraseInList, hb, repsOf, List.filter_cons, hkp]
      omega
    | false =>
      have h2 : (ps.any fun p => phraseKey p == key) = true := by
        rw [List.any_cons, hb, Bool.false_or] at h
        exact h
      simp only [incPhraseInList, hb, Bool.false_eq_true, if_false]
      simpa [repsOf, List.filter_cons, hb] using ih h2

/-- Incrementing one key leaves every other key's repetition total
unchanged. -/
theorem repsOf_incPhraseInList_ne {key k2 : String} (hne : k2 ≠ key) (l : List Phrase) :
    repsOf (incPhraseInList key l).1 k2 = repsOf l k2 := by
  induction l with
  | nil => rfl
  | cons p ps ih =>
    cases hb : (phraseKey p == key) with
    | true =>
      have hpk : phraseKey p = key := by simpa using hb
      have hpk2 : (phraseKey p == k2) = false := by
        simp [hpk]
        exact fun h2 => hne h2.symm
      have hkp2 : (phraseKey { p with repetitions := p.repetitions + 1 } == k2) = false := hpk2
      simp [incPhraseInList, hb, repsOf, List.filter_cons, hpk2, hkp2]
    | false =>
      cases hk : (phraseKey p == k2) with
      | true =>
        simp only [incPhraseInList, hb, Bool.false_eq_true, if_false]
        simpa [repsOf, List.filter_cons, hk] using ih
      | false =>
        simp only [incPhraseInList, hb, Bool.false_eq_true, if_false]
        simpa [repsOf, List.filter_cons, hk] using ih

/-- Searching for a key scans only the key sequence. -/
theorem any_key_map (l : List Phrase) (k2 : String) :
    (l.any fun p => phraseKey p == k2) = ((l.map phraseKey).any fun k => k == k2) := by
  induction l with
  | nil => rfl
  | cons p ps ih => simp [ih]

/-- Whether a key occurs among the stored phrases is unchanged by an
increment. -/
theorem anyKey_incrementForItem (docs : List FeedbackDoc) (key k2 : String) :
    (allPhrases (incrementForItem docs key)).any (fun p => phraseKey p == k2)
      = (allPhrases docs).any (fun p => phraseKey p == k2) := by
  rw [allPhrases_incrementForItem, any_key_map, any_key_map, keys_incPhraseInList]

/-- Document-level version of the increment-by-one property. -/
theorem repsForKey_incrementForItem {docs : List FeedbackDoc} {key : String}
    (h : (allPhrases docs).any (fun p => phraseKey p == key) = true) :
    repsForKey (incrementForItem docs key) key = repsForKey docs key + 1 := by
  rw [repsForKey, repsForKey, allPhrases_incrementForItem]
  exact repsOf_incPhraseInList h

/-- Document-level version of the other-keys-unchanged property. -/
theorem repsForKey_incrementForItem_ne (docs : List FeedbackDoc) {key k2 : String}
    (hne : k2 ≠ key) :
    repsForKey (incrementForItem docs key) k2 = repsForKey docs k2 := by
  rw [repsForKey, repsForKey, allPhrases_incrementForItem]
  exact repsOf_incPhraseInList_ne hne _

/-- The whole update block: with pairwise distinct keys that all occur,
each item's key total rises by exactly one and every unused key total is
unchanged. -/
theorem repsForKey_updateRepetitions (items : List ReviewItem) :
    ∀ docs : List FeedbackDoc, ((items.map fun x => x.phraseId).Nodup) →
      (∀ item ∈ items, (allPhrases docs).any (fun p => phraseKey p == item.phraseId) = true) →
      (∀ item ∈ items,
        repsForKey (updateRepetitions docs items) item.phraseId
          = repsForKey docs item.phraseId + 1) ∧
      (∀ key, (∀ item ∈ items, item.phraseId ≠ key) →
        repsForKey (updateRepetitions docs items) key = repsForKey docs key) := by
  induction items with
  | nil =>
    intro docs _ _
    exact ⟨fun item h => absurd h (List.not_mem_nil _), fun key _ => rfl⟩
  | cons it rest ih =>
    intro docs hnodup hocc
    have hupd : updateRepetitions docs (it :: rest)
        = updateRepetitions (incrementForItem docs it.phraseId) rest := rfl
    have hnodup2 : (it.phraseId ∉ rest.map fun x => x.phraseId) ∧
        ((rest.map fun x => x.phraseId).Nodup) := by
      rw [List.map_cons] at hnodup
      exact List.nodup_cons.1 hnodup
    have hocc2 : ∀ item ∈ rest,
        (allPhrases (incrementForItem docs it.phraseId)).any
          (fun p => phraseKey p == item.phraseId) = true := by
      intro item hm
      rw [anyKey_incrementForItem]
      exact hocc item (List.mem_cons_of_mem _ hm)
    have hih := ih (incrementForItem docs it.phraseId) hnodup2.2 hocc2
    constructor
    · intro item hm
      rcases List.mem_cons.1 hm with rfl | hm2
      · rw [hupd]
        have hne : ∀ j ∈ rest, j.phraseId ≠ item.phraseId := by
          intro j hj heq
          exact hnodup2.1 (heq ▸ List.mem_map_of_mem (fun x => x.phraseId) hj)
        rw [hih.2 item.phraseId hne]
        exact repsForKey_incrementForItem (hocc item (List.mem_cons_self _ _))
      · rw [hupd, hih.1 item hm2]
        have hne : item.phraseId ≠ it.phraseId := by
          intro heq
          exact hnodup2.1 (heq ▸ List.mem_map_of_mem (fun x => x.phraseId) hm2)
        rw [repsForKey_incrementForItem_ne docs hne]
    · intro key hkey
      rw [hupd, hih.2 key fun j hj => hkey j (List.mem_cons_of_mem _ hj)]
      have hne : key ≠ it.phraseId := fun heq =>
        hkey it (List.mem_cons_self _ _) heq.symm
      rw [repsForKey_incrementForItem_ne docs hne]

/-- Selector output items come from the flattened candidates. -/
theorem mem_flatItems_of_mem_getReviewItems {docs : List FeedbackDoc} {limit : Nat}
    {shuffle : Nat → List ReviewItem → List ReviewItem}
    (hsh : ∀ k l, (shuffle k l).Perm l) {x : ReviewItem}
    (hx : x ∈ getReviewItems (.ok docs) limit shuffle) : x ∈ flatItems docs :=
  mem_of_mem_dedupByKey (mem_dedup_of_mem_getReviewItems hsh hx)

/-- The key of a candidate occurs among the stored phrases. -/
theorem anyKey_of_mem_flatItems {docs : List FeedbackDoc} {x : ReviewItem}
    (hx : x ∈ flatItems docs) :
    (allPhrases docs).any (fun p => phraseKey p == x.phraseId) = true := by
  rcases List.mem_flatMap.1 hx with ⟨d, hd, hx2⟩
  rcases List.mem_map.1 hx2 with ⟨p, hp, rfl⟩
  refine List.any_eq_true.2 ⟨p, List.mem_flatMap.2 ⟨d, hd, hp⟩, ?_⟩
  simp [buildItem]

/-- An indexed default lookup yields a member or the default. -/
theorem mem_getD {α : Type} (l : List α) (n : Nat) (d : α) :
    l.getD n d ∈ l ∨ l.getD n d = d := by
  induction l generalizing n with
  | nil => exact Or.inr rfl
  | cons x xs ih =>
    cases n with
    | zero => exact Or.inl (List.mem_cons_self _ _)
    | succ m =>
      rcases ih m with h | h
      · exact Or.inl (List.mem_cons_of_mem _ h)
      · exact Or.inr h

/-- Committing no write leaves the store unchanged. -/
theorem applyWrite_none (cur : List FeedbackDoc) : applyWrite cur none = cur := by
  cases cur <;> rfl

/-- Committing the write computed from the current state is exactly the
sequential in-place increment. -/
theorem applyWrite_computeWrite (cur : List FeedbackDoc) (key : String) :
    applyWrite cur (computeWrite cur key) = incrementForItem cur key := by
  induction cur with
  | nil => rfl
  | cons d ds ih =>
    by_cases h : (d.phrases.any fun p => phraseKey p == key) = true
    · rw [computeWrite, if_pos h, incrementForItem, if_pos h]
      rfl
    · rw [computeWrite, if_neg h, incrementForItem, if_neg h]
      cases hw : computeWrite ds key with
      | none =>
        rw [hw] at ih
        simp only [Option.map_none']
        rw [applyWrite_none, ← ih, applyWrite_none]
      | some w =>
        obtain ⟨i, phs⟩ := w
        rw [hw] at ih
        simp only [Option.map_some']
        rw [show applyWrite (d :: ds) (some (i + 1, phs))
            = d :: applyWrite ds (some (i, phs)) from rfl, ih]

/-- A key occurring among the stored phrases has a write target. -/
theorem computeWrite_isSome {docs : List FeedbackDoc} {key : String}
    (h : (allPhrases docs).any (fun p => phraseKey p == key) = true) :
    ∃ i phs, computeWrite docs key = some (i, phs) := by
  induction docs with
  | nil => simp [allPhrases] at h
  | cons d ds ih =>
    rw [allPhrases_cons, List.any_append] at h
    by_cases hd : (d.phrases.any fun p => phraseKey p == key) = true
    · exact ⟨0, (incPhraseInList key d.phrases).1, by rw [computeWrite, if_pos hd]⟩
    · have hdf : (d.phrases.any fun p => phraseKey p == key) = false := by
        simpa using hd
      rw [hdf, Bool.false_or] at h
      rcases ih h with ⟨i, phs, hw⟩
      refine ⟨i + 1, phs, ?_⟩
      rw [computeWrite, if_neg hd, hw]
      rfl

/-- An increment at one document leaves the write another key computes
against any snapshot unchanged, provided the two keys target different
documents. -/
theorem computeWrite_incrementForItem_ne {cur : List FeedbackDoc} {key key2 : String} :
    ∀ {i i2 : Nat} {phs phs2 : List Phrase},
      computeWrite cur key = some (i, phs) →
      computeWrite cur key2 = some (i2, phs2) → i ≠ i2 →
      computeWrite (incrementForItem cur key) key2 = some (i2, phs2) := by
  induction cur with
  | nil => intro i i2 phs phs2 hw _ _; simp [computeWrite] at hw
  | cons d ds ih =>
    intro i i2 phs phs2 hw hw2 hne
    by_cases hd : (d.phrases.any fun p => phraseKey p == key) = true
    · rw [computeWrite, if_pos hd] at hw
      simp only [Option.some.injEq, Prod.mk.injEq] at hw
      by_cases hd2 : (d.phrases.any fun p => phraseKey p == key2) = true
      · rw [computeWrite, if_pos hd2] at hw2
        simp only [Option.some.injEq, Prod.mk.injEq] at hw2
        exact absurd (hw.1.symm.trans hw2.1) hne
      · rw [computeWrite, if_neg hd2] at hw2
        rw [incrementForItem, if_pos hd]
        have hany2 : (((incPhraseInList key d.phrases).1).any fun p => phraseKey p == key2)
            = false := by
          rw [any_key_map, keys_incPhraseInList, ← any_key_map]
          simpa using hd2
        rw [computeWrite, if_neg (by simp [hany2])]
        exact hw2
    · rw [computeWrite, if_neg hd] at hw
      rw [incrementForItem, if_neg hd]
      by_cases hd2 : (d.phrases.any fun p => phraseKey p == key2) = true
      · rw [computeWrite, if_pos hd2] at hw2 ⊢
        exact hw2
      · rw [computeWrite, if_neg hd2] at hw2
        cases hwd : computeWrite ds key with
        | none => rw [hwd] at hw; simp at hw
        | some w =>
          obtain ⟨k, kphs⟩ := w
          rw [hwd] at hw
          simp only [Option.map_some', Option.some.injEq, Prod.mk.injEq] at hw
          cases hwd2 : computeWrite ds key2 with
          | none => rw [hwd2] at hw2; simp at hw2
          | some w2 =>
            obtain ⟨k2, k2phs⟩ := w2
            rw [hwd2] at hw2
            simp only [Option.map_some', Option.some.injEq, Prod.mk.injEq] at hw2
            have hkne : k ≠ k2 := by
              intro hk
              exact hne (by rw [← hw.1, ← hw2.1, hk])
            have hrec := ih hwd hwd2 hkne
            rw [computeWrite, if_neg hd2, hrec]
            simp only [Option.map_some', Option.some.injEq, Prod.mk.injEq]
            exact hw2

/-- Under pairwise distinct target documents, every interleaving of the
concurrent update block computes the sequential fold: every snapshot a
callback can read yields the same write as the original store. -/
theorem raceUpdateGo_eq_seq (docs : List FeedbackDoc) (reads : Nat → Nat) :
    ∀ (rest : List ReviewItem) (states : List (List FeedbackDoc)) (cur : List FeedbackDoc),
      ((rest.map fun x => x.phraseId).Nodup) →
      (∀ item ∈ rest, ∃ i phs, computeWrite docs item.phraseId = some (i, phs)) →
      (∀ a ∈ rest, ∀ b ∈ rest, a.phraseId ≠ b.phraseId →
        docIdx? docs a.phraseId ≠ docIdx? docs b.phraseId) →
      (∀ item ∈ rest, ∀ s ∈ states ++ [cur],
        computeWrite s item.phraseId = computeWrite docs item.phraseId) →
      raceUpdateGo reads rest states cur = updateRepetitions cur rest := by
  intro rest
  induction rest with
  | nil => intro states cur _ _ _ _; rfl
  | cons item rest ih =>
    intro states cur hnd hocc hdist hINV
    have hsnap : (states ++ [cur]).getD (min (reads states.length) states.length) cur
        ∈ states ++ [cur] := by
      rcases mem_getD (states ++ [cur]) (min (reads states.length) states.length) cur with h | h
      · exact h
      · rw [h]
        exact List.mem_append.2 (Or.inr (List.mem_singleton.2 rfl))
    have hW : computeWrite
        ((states ++ [cur]).getD (min (reads states.length) states.length) cur) item.phraseId
        = computeWrite docs item.phraseId :=
      hINV item (List.mem_cons_self _ _) _ hsnap
    have hWc : computeWrite cur item.phraseId = computeWrite docs item.phraseId :=
      hINV item (List.mem_cons_self _ _) cur (by simp)
    have hstep : applyWrite cur (computeWrite
        ((states ++ [cur]).getD (min (reads states.length) states.length) cur) item.phraseId)
        = incrementForItem cur item.phraseId := by
      rw [hW, ← hWc, applyWrite_computeWrite]
    have hnd2 : ((rest.map fun x => x.phraseId).Nodup) ∧
        item.phraseId ∉ rest.map fun x => x.phraseId := by
      rw [List.map_cons] at hnd
      exact ⟨(List.nodup_cons.1 hnd).2, (List.nodup_cons.1 hnd).1⟩
    rcases hocc item (List.mem_cons_self _ _) with ⟨i, phs, hwit⟩
    have hINV2 : ∀ item2 ∈ rest, ∀ s ∈ (states ++ [cur]) ++ [incrementForItem cur item.phraseId],
        computeWrite s item2.phraseId = computeWrite docs item2.phraseId := by
      intro item2 hm2 s hs
      rcases List.mem_append.1 hs with hs | hs
      · exact hINV item2 (List.mem_cons_of_mem _ hm2) s hs
      · rw [List.mem_singleton.1 hs]
        rcases hocc item2 (List.mem_cons_of_mem _ hm2) with ⟨i2, phs2, hwit2⟩
        have hkne : item.phraseId ≠ item2.phraseId := by
          intro hk
          exact hnd2.2 (hk ▸ List.mem_map_of_mem (fun x => x.phraseId) hm2)
        have hine : i ≠ i2 := by
          intro hik
          refine hdist item (List.mem_cons_self _ _) item2 (List.mem_cons_of_mem _ hm2)
            hkne ?_
          simp [docIdx?, hwit, hwit2, hik]
        have hc1 : computeWrite cur item.phraseId = some (i, phs) := by
          rw [hWc, hwit]
        have hc2 : computeWrite cur item2.phraseId = some (i2, phs2) := by
          rw [hINV item2 (List.mem_cons_of_mem _ hm2) cur (by simp), hwit2]
        rw [computeWrite_incrementForItem_ne hc1 hc2 hine, ← hwit2]
    have hrest := ih (states ++ [cur]) (incrementForItem cur item.phraseId)
      hnd2.1 (fun j hj => hocc j (List.mem_cons_of_mem _ hj))
      (fun a ha b hb => hdist a (List.mem_cons_of_mem _ ha) b (List.mem_cons_of_mem _ hb))
      hINV2
    rw [raceUpdateGo]
    rw [hstep, hrest]
    rfl

/-- The concurrent update block equals the sequential fold when the
used candidates lie in pairwise distinct documents, for every commit
order and every snapshot-read schedule. -/
theorem raceUpdate_eq_updateRepetitions {docs : List FeedbackDoc} {order : List ReviewItem}
    (hnd : (order.map fun x => x.phraseId).Nodup)
    (hocc : ∀ item ∈ order, (allPhrases docs).any (fun p => phraseKey p == item.phraseId) = true)
    (hdist : ∀ a ∈ order, ∀ b ∈ order, a.phraseId ≠ b.phraseId →
      docIdx? docs a.phraseId ≠ docIdx? docs b.phraseId)
    (reads : Nat → Nat) :
    raceUpdate docs order reads = updateRepetitions docs order := by
  refine raceUpdateGo_eq_seq docs reads order [] docs hnd ?_ hdist ?_
  · intro item hm
    exact computeWrite_isSome (hocc item hm)
  · intro item _ s hs
    rcases List.mem_append.1 hs with h | h
    · simp at h
    · rw [List.mem_singleton.1 h]

/-! Helper lemmas for the scheduler state machine (claims C7, C8). -/

/-- A duplicate-free list whose members all equal one occurring value is
that singleton. -/
theorem nodup_all_eq_singleton {α : Type} {l : List α} {a : α}
    (hnd : l.Nodup) (hall : ∀ x ∈ l, x = a) (hmem : a ∈ l) : l = [a] := by
  cases l with
  | nil => simp at hmem
  | cons x xs =>
    have hx : x = a := hall x (List.mem_cons_self _ _)
    subst hx
    cases xs with
    | nil => rfl
    | cons y ys =>
      rcases List.nodup_cons.1 hnd with ⟨hnx, _⟩
      have hy : x ∈ y :: ys :=
        List.mem_cons.2 (Or.inl (hall y (by simp)).symm)
      exact absurd hy hnx

/-- The key of an entry occurs among the keys. -/
theorem key_mem_of_mem {m : List (Nat × Nat)} {e : Nat × Nat} (h : e ∈ m) :
    e.1 ∈ m.map fun x => x.1 :=
  List.mem_map_of_mem (fun x => x.1) h

/-- Splitting duplicate-free keys at a cons. -/
theorem nodup_keys_cons {e : Nat × Nat} {es : List (Nat × Nat)}
    (hnd : (((e :: es).map fun x => x.1)).Nodup) :
    (e.1 ∉ es.map fun x => x.1) ∧ ((es.map fun x => x.1)).Nodup := by
  rw [List.map_cons] at hnd
  exact List.nodup_cons.1 hnd

/-- Lookup misses when the key is absent. -/
theorem mapGet?_eq_none {m : List (Nat × Nat)} {u : Nat}
    (h : u ∉ m.map fun e => e.1) : mapGet? m u = none := by
  have hf : m.find? (fun e => e.1 == u) = none := by
    refine List.find?_eq_none.2 fun e he => ?_
    simp only [beq_iff_eq]
    intro heq
    exact h (heq ▸ key_mem_of_mem he)
  rw [mapGet?, hf]
  rfl

/-- Lookup finds the unique entry under duplicate-free keys. -/
theorem mapGet?_eq_some {m : List (Nat × Nat)} {u id : Nat}
    (hnd : (m.map fun e => e.1).Nodup) (hmem : (u, id) ∈ m) :
    mapGet? m u = some id := by
  induction m with
  | nil => simp at hmem
  | cons e es ih =>
    rcases nodup_keys_cons hnd with ⟨hk, hnd2⟩
    rcases List.mem_cons.1 hmem with rfl | hmem2
    · rw [mapGet?, List.find?_cons_of_pos _ (by simp)]
      rfl
    · have hne : e.1 ≠ u := by
        intro heq
        exact hk (heq ▸ key_mem_of_mem hmem2)
      rw [mapGet?, List.find?_cons_of_neg _ (by simp [hne])]
      exact ih hnd2 hmem2

/-- Setting an absent key appends the entry. -/
theorem mapSet_of_not_mem {m : List (Nat × Nat)} {u : Nat}
    (h : u ∉ m.map fun e => e.1) (v : Nat) : mapSet m u v = m ++ [(u, v)] := by
  rw [mapSet, if_neg]
  intro hany
  rcases List.any_eq_true.1 hany with ⟨e, he, heq⟩
  have heq2 : e.1 = u := by simpa using heq
  exact h (heq2 ▸ key_mem_of_mem he)

/-- No entry carries an absent key. -/
theorem filter_key_eq_nil {m : List (Nat × Nat)} {u : Nat}
    (h : u ∉ m.map fun e => e.1) : m.filter (fun e => e.1 == u) = [] := by
  induction m with
  | nil => rfl
  | cons e es ih =>
    rw [List.map_cons] at h
    have h1 : e.1 ≠ u := fun heq =>
      h (heq ▸ List.mem_cons_self _ _)
    have h2 : u ∉ es.map fun e => e.1 := fun hm => h (List.mem_cons_of_mem _ hm)
    have hne : (e.1 == u) = false := by simp [h1]
    rw [List.filter_cons, hne]
    simp only [Bool.false_eq_true, if_false]
    exact ih h2

/-- Under duplicate-free keys the entries with a present key are exactly
the unique entry. -/
theorem filter_key_eq_of_nodup {m : List (Nat × Nat)}
    (hnd : (m.map fun e => e.1).Nodup) {u id : Nat} (hmem : (u, id) ∈ m) :
    m.filter (fun e => e.1 == u) = [(u, id)] := by
  induction m with
  | nil => simp at hmem
  | cons e es ih =>
    rcases nodup_keys_cons hnd with ⟨hk, hnd2⟩
    rcases List.mem_cons.1 hmem with rfl | hmem2
    · rw [List.filter_cons, (by simp : (((u, id).1 == u)) = true)]
      simp only [if_true]
      rw [filter_key_eq_nil hk]
    · have hne : (e.1 == u) = false := by
        simp only [beq_eq_false_iff_ne, ne_eq]
        intro heq
        exact hk (heq ▸ key_mem_of_mem hmem2)
      rw [List.filter_cons, hne]
      simp only [Bool.false_eq_true, if_false]
      exact ih hnd2 hmem2

/-- In-place replacement permutes with remove-then-append under
duplicate-free keys. -/
theorem mapSet_perm {m : List (Nat × Nat)} {u w : Nat}
    (hnd : (m.map fun e => e.1).Nodup) (hmem : (u, w) ∈ m) (v : Nat) :
    (mapSet m u v).Perm ((m.filter fun e => e.1 ≠ u) ++ [(u, v)]) := by
  induction m with
  | nil => simp at hmem
  | cons e es ih =>
    rcases nodup_keys_cons hnd with ⟨hk, hnd2⟩
    have hany : ((e :: es).any fun x => x.1 == u) = true :=
      List.any_eq_true.2 ⟨(u, w), hmem, by simp⟩
    rw [mapSet, if_pos hany]
    rcases List.mem_cons.1 hmem with rfl | hmem2
    · have hes : (es.map fun x => if x.1 == u then (u, v) else x) = es := by
        have hpt : ∀ x ∈ es, (if x.1 == u then (u, v) else x) = x := by
          intro x hx
          rw [if_neg]
          simp only [beq_iff_eq]
          intro heq
          have hmm : x.1 ∈ es.map fun x => x.1 := key_mem_of_mem hx
          rw [heq] at hmm
          exact hk hmm
        calc (es.map fun x => if x.1 == u then (u, v) else x)
            = es.map fun x => x := List.map_congr_left hpt
          _ = es := by simp
      have hfil : (((u, w) :: es).filter fun e => e.1 ≠ u) = es := by
        rw [List.filter_cons, (by simp : (decide ((u, w).1 ≠ u)) = false)]
        simp only [Bool.false_eq_true, if_false]
        have hpt : ∀ x ∈ es, (decide (x.1 ≠ u)) = true := by
          intro x hx
          simp only [decide_eq_true_eq, ne_eq]
          intro heq
          have hmm : x.1 ∈ es.map fun x => x.1 := key_mem_of_mem hx
          rw [heq] at hmm
          exact hk hmm
        exact List.filter_eq_self.2 hpt
      rw [List.map_cons, (by simp : (((u, w).1 == u)) = true)]
      simp only [if_true]
      rw [hes, hfil]
      exact (List.perm_append_singleton (u, v) es).symm
    · have hne : e.1 ≠ u := by
        intro heq
        exact hk (heq ▸ key_mem_of_mem hmem2)
      have hany2 : (es.any fun x => x.1 == u) = true :=
        List.any_eq_true.2 ⟨(u, w), hmem2, by simp⟩
      rw [List.map_cons, (by simp [hne] : ((e.1 == u)) = false)]
      simp only [Bool.false_eq_true, if_false]
      rw [List.filter_cons, (by simp [hne] : (decide (e.1 ≠ u)) = true)]
      simp only [if_true]
      have hrec := ih hnd2 hmem2
      rw [mapSet, if_pos hany2] at hrec
      exact (hrec.cons e).trans (by rw [List.cons_append])

/-- Keys of the entries surviving a key-removal filter. -/
theorem mem_keys_filter_ne {m : List (Nat × Nat)} {u u' : Nat} :
    (u' ∈ (m.filter fun e => e.1 ≠ u).map fun e => e.1) ↔
      (u' ∈ m.map fun e => e.1) ∧ u' ≠ u := by
  constructor
  · intro hm
    rcases List.mem_map.1 hm with ⟨e2, he2f, hke⟩
    rcases List.mem_filter.1 he2f with ⟨he2, hne⟩
    refine ⟨List.mem_map.2 ⟨e2, he2, hke⟩, ?_⟩
    subst hke
    simpa using hne
  · rintro ⟨hm, hne⟩
    rcases List.mem_map.1 hm with ⟨e2, he2, hke⟩
    exact List.mem_map.2 ⟨e2, List.mem_filter.2 ⟨he2, by simp [hke, hne]⟩, hke⟩

/-- The removed key survives no filter entry. -/
theorem not_mem_keys_filter_self {m : List (Nat × Nat)} {u : Nat} :
    u ∉ (m.filter fun e => e.1 ≠ u).map fun e => e.1 := by
  intro hm
  exact absurd (mem_keys_filter_ne.1 hm).2 (by simp)

/-- Cancelling the mapped timeout id removes exactly the user's pairs:
on the map's entries, value equal to id coincides with key equal to u. -/
theorem filter_val_eq_filter_key {m : List (Nat × Nat)}
    (hk : (m.map fun e => e.1).Nodup) (hv : (m.map fun e => e.2).Nodup)
    {u id : Nat} (hmem : (u, id) ∈ m) :
    (m.filter fun e => decide (e.2 ≠ id)) = m.filter fun e => decide (e.1 ≠ u) := by
  refine List.filter_congr ?_
  intro e he
  have hiff : e.2 = id ↔ e.1 = u := by
    constructor
    · intro h2
      have he2 : e = (u, id) := List.inj_on_of_nodup_map hv he hmem h2
      rw [he2]
    · intro h1
      have he2 : e = (u, id) := List.inj_on_of_nodup_map hk he hmem h1
      rw [he2]
  by_cases h2 : e.2 = id
  · simp [h2, hiff.1 h2]
  · have h1 : ¬e.1 = u := fun h1 => h2 (hiff.2 h1)
    simp [h2, h1]

/-- The armed-timeout multiset after a clearTimeout of the mapped id. -/
theorem cancel_pending_perm {s : SchedState} (hInv : SchedInv s) {u id : Nat}
    (hmem : (u, id) ∈ s.schedMap) :
    (cancelTimer s.pending id).Perm
      ((s.schedMap.filter fun e => e.1 ≠ u).map fun e => (e.2, e.1)) := by
  obtain ⟨-, hk, hv, -, -, hP⟩ := hInv
  have h1 := hP.filter (fun t : Nat × Nat => decide (t.1 ≠ id))
  have h2 : ((s.schedMap.map fun e => (e.2, e.1)).filter fun t => decide (t.1 ≠ id))
      = (s.schedMap.filter fun e => decide (e.2 ≠ id)).map fun e => (e.2, e.1) := by
    rw [List.filter_map]
    rfl
  rw [h2, filter_val_eq_filter_key hk hv hmem] at h1
  exact h1

/-- Unfolding scheduleNextChallenge when the user has no mapped
timeout. -/
theorem scheduleNext_none {s : SchedState} {u : Nat}
    (h : mapGet? s.schedMap u = none) :
    scheduleNextChallenge s u = { s with
      pending := s.pending ++ [(s.nextId, u)]
      schedMap := mapSet s.schedMap u s.nextId
      nextId := s.nextId + 1 } := by
  simp only [scheduleNextChallenge, h]

/-- Unfolding scheduleNextChallenge when the user has a mapped
timeout. -/
theorem scheduleNext_some {s : SchedState} {u id : Nat}
    (h : mapGet? s.schedMap u = some id) :
    scheduleNextChallenge s u = { s with
      pending := cancelTimer s.pending id ++ [(s.nextId, u)]
      schedMap := mapSet s.schedMap u s.nextId
      nextId := s.nextId + 1 } := by
  simp only [scheduleNextChallenge, h]

/-- The initial scheduler state satisfies the invariant. -/
theorem schedInv_init : SchedInv initState := by
  refine ⟨?_, ?_, ?_, ?_, ?_, ?_⟩ <;> simp [initState]

/-- addUser is a no-op on an active user. -/
theorem addUser_mem {s : SchedState} {u : Nat} (hu : u ∈ s.active) : addUser s u = s := by
  rw [addUser, if_pos hu]

/-- Unfolding addUser on a fresh user with no mapped timeout. -/
theorem addUser_not_mem {s : SchedState} {u : Nat} (hu : u ∉ s.active)
    (hknot : u ∉ s.schedMap.map fun e => e.1) :
    addUser s u = { s with
      active := s.active ++ [u]
      pending := s.pending ++ [(s.nextId, u)]
      schedMap := s.schedMap ++ [(u, s.nextId)]
      nextId := s.nextId + 1 } := by
  have hnone : mapGet? s.schedMap u = none := mapGet?_eq_none hknot
  rw [addUser, if_neg hu]
  simp only [scheduleNextChallenge, hnone, mapSet_of_not_mem hknot]

/-- addUser preserves the invariant. -/
theorem schedInv_addUser {s : SchedState} (hInv : SchedInv s) (u : Nat) :
    SchedInv (addUser s u) := by
  by_cases hu : u ∈ s.active
  · rw [addUser_mem hu]
    exact hInv
  · obtain ⟨ha, hk, hv, hai, hfresh, hP⟩ := hInv
    have hknot : u ∉ s.schedMap.map fun e => e.1 := fun hm => hu ((hai u).2 hm)
    rw [addUser_not_mem hu hknot]
    refine ⟨?_, ?_, ?_, ?_, ?_, ?_⟩
    · exact ((List.perm_append_singleton u s.active).nodup_iff).2 (List.nodup_cons.2 ⟨hu, ha⟩)
    · rw [List.map_append]
      refine ((List.perm_append_singleton u _).nodup_iff).2 (List.nodup_cons.2 ⟨hknot, hk⟩)
    · rw [List.map_append]
      refine ((List.perm_append_singleton s.nextId _).nodup_iff).2
        (List.nodup_cons.2 ⟨?_, hv⟩)
      intro hm
      rcases List.mem_map.1 hm with ⟨e, he, hval⟩
      exact absurd hval (Nat.ne_of_lt (hfresh e he))
    · intro u'
      rw [List.map_append, List.mem_append, List.mem_append, hai u']
      simp
    · intro e he
      rcases List.mem_append.1 he with he | he
      · exact Nat.lt_trans (hfresh e he) (Nat.lt_succ_self _)
      · rw [List.mem_singleton.1 he]
        exact Nat.lt_succ_self _
    · rw [List.map_append]
      exact hP.append_right _

/-- removeUser preserves the invariant. -/
theorem schedInv_removeUser {s : SchedState} (hInv : SchedInv s) (u : Nat) :
    SchedInv (removeUser s u) := by
  by_cases hu : u ∈ s.active
  · have hInv2 := hInv
    obtain ⟨ha, hk, hv, hai, hfresh, hP⟩ := hInv2
    rcases List.mem_map.1 ((hai u).1 hu) with ⟨⟨u1, id⟩, he, rfl⟩
    have hget : mapGet? s.schedMap u1 = some id := mapGet?_eq_some hk he
    rw [removeUser, if_pos hu, hget]
    refine ⟨ha.filter _, ?_, ?_, ?_, ?_, ?_⟩
    · exact hk.sublist ((List.filter_sublist _).map _)
    · exact hv.sublist ((List.filter_sublist _).map _)
    · intro u'
      constructor
      · intro h
        rcases List.mem_filter.1 h with ⟨h1, h2⟩
        exact mem_keys_filter_ne.2 ⟨(hai u').1 h1, by simpa using h2⟩
      · intro h
        rcases mem_keys_filter_ne.1 h with ⟨h1, h2⟩
        exact List.mem_filter.2 ⟨(hai u').2 h1, by simpa using h2⟩
    · intro e he2
      exact hfresh e (List.mem_of_mem_filter he2)
    · exact cancel_pending_perm hInv he
  · rw [removeUser, if_neg hu]
    exact hInv

/-- scheduleNextChallenge for an active user preserves the invariant and
the active set. -/
theorem schedInv_scheduleNext {s : SchedState} (hInv : SchedInv s) {u : Nat}
    (hu : u ∈ s.active) :
    SchedInv (scheduleNextChallenge s u) ∧ (scheduleNextChallenge s u).active = s.active := by
  have hInv2 := hInv
  obtain ⟨ha, hk, hv, hai, hfresh, hP⟩ := hInv2
  rcases List.mem_map.1 ((hai u).1 hu) with ⟨⟨u1, id⟩, he, rfl⟩
  have hget : mapGet? s.schedMap u1 = some id := mapGet?_eq_some hk he
  rw [scheduleNext_some hget]
  have hmp := mapSet_perm hk he s.nextId
  have hkeyperm := hmp.map fun e : Nat × Nat => e.1
  have hvalperm := hmp.map fun e : Nat × Nat => e.2
  rw [List.map_append] at hkeyperm hvalperm
  refine ⟨⟨ha, ?_, ?_, ?_, ?_, ?_⟩, rfl⟩
  · refine hkeyperm.nodup_iff.2 ?_
    refine ((List.perm_append_singleton u1 _).nodup_iff).2
      (List.nodup_cons.2 ⟨not_mem_keys_filter_self, ?_⟩)
    exact hk.sublist ((List.filter_sublist _).map _)
  · refine hvalperm.nodup_iff.2 ?_
    refine ((List.perm_append_singleton s.nextId _).nodup_iff).2
      (List.nodup_cons.2 ⟨?_, hv.sublist ((List.filter_sublist _).map _)⟩)
    intro hm
    rcases List.mem_map.1 hm with ⟨e, hef, hval⟩
    exact absurd hval (Nat.ne_of_lt (hfresh e (List.mem_of_mem_filter hef)))
  · intro u'
    rw [hai u']
    constructor
    · intro h
      refine (hkeyperm.mem_iff).2 ?_
      rcases eq_or_ne u' u1 with rfl | hne
      · exact List.mem_append.2 (Or.inr (by simp))
      · exact List.mem_append.2 (Or.inl (mem_keys_filter_ne.2 ⟨h, hne⟩))
    · intro h
      rcases List.mem_append.1 ((hkeyperm.mem_iff).1 h) with h2 | h2
      · exact (mem_keys_filter_ne.1 h2).1
      · have : u' = u1 := by simpa using h2
        rw [this]
        exact (hai u1).1 hu
  · intro e he2
    rcases List.mem_append.1 ((hmp.mem_iff).1 he2) with h2 | h2
    · exact Nat.lt_trans (hfresh e (List.mem_of_mem_filter h2)) (Nat.lt_succ_self _)
    · rw [List.mem_singleton.1 h2]
      exact Nat.lt_succ_self _
  · refine ((cancel_pending_perm hInv he).append_right _).trans ?_
    refine (List.Perm.symm ?_)
    refine (hmp.map fun e : Nat × Nat => (e.2, e.1)).trans ?_
    rw [List.map_append]
    rfl

/-- start() preserves the invariant and the active set. -/
theorem schedInv_startAux (l : List Nat) :
    ∀ s : SchedState, SchedInv s → (∀ u ∈ l, u ∈ s.active) →
      SchedInv (l.foldl scheduleNextChallenge s) ∧
        (l.foldl scheduleNextChallenge s).active = s.active := by
  induction l with
  | nil => exact fun s h _ => ⟨h, rfl⟩
  | cons u us ih =>
    intro s hInv hmem
    have h1 := schedInv_scheduleNext hInv (hmem u (List.mem_cons_self _ _))
    have h2 := ih (scheduleNextChallenge s u) h1.1
      (fun v hv => by rw [h1.2]; exact hmem v (List.mem_cons_of_mem _ hv))
    exact ⟨h2.1, h2.2.trans h1.2⟩

/-- Every public operation preserves the invariant. -/
theorem schedInv_applyOp {s : SchedState} (hInv : SchedInv s) (op : SchedOp) :
    SchedInv (applyOp s op) := by
  cases op with
  | add u => exact schedInv_addUser hInv u
  | remove u => exact schedInv_removeUser hInv u
  | start => exact (schedInv_startAux s.active s hInv fun u hu => hu).1

/-- Every state reachable through the public operations satisfies the
invariant. -/
theorem schedInv_runOps (ops : List SchedOp) : SchedInv (runOps ops) := by
  have hgen : ∀ s : SchedState, SchedInv s → SchedInv (ops.foldl applyOp s) := by
    induction ops with
    | nil => exact fun s h => h
    | cons op rest ih => exact fun s h => ih _ (schedInv_applyOp h op)
  exact hgen initState schedInv_init

/-- Counting a user's armed timeouts from the invariant. -/
theorem schedInv_pending_filter {s : SchedState} (hInv : SchedInv s) (u : Nat) :
    (u ∈ s.active → (s.pending.filter fun t => t.2 == u).length = 1) ∧
    (u ∉ s.active → s.pending.filter (fun t => t.2 == u) = []) := by
  obtain ⟨ha, hk, hv, hai, hfresh, hP⟩ := hInv
  have hPf := hP.filter fun t : Nat × Nat => t.2 == u
  have heq : ((s.schedMap.map fun e => (e.2, e.1)).filter fun t => t.2 == u)
      = (s.schedMap.filter fun e => e.1 == u).map fun e => (e.2, e.1) := by
    rw [List.filter_map]
    rfl
  rw [heq] at hPf
  constructor
  · intro hu
    rcases List.mem_map.1 ((hai u).1 hu) with ⟨⟨u1, id⟩, he, hekey⟩
    have hmem : (u, id) ∈ s.schedMap := by
      rw [show u = u1 from hekey.symm]
      exact he
    rw [filter_key_eq_of_nodup hk hmem] at hPf
    rw [hPf.length_eq]
    rfl
  · intro hu
    have hknot : u ∉ s.schedMap.map fun e => e.1 := fun hm => hu ((hai u).2 hm)
    rw [filter_key_eq_nil hknot] at hPf
    exact hPf.eq_nil

/-- addUser leaves the user active. -/
theorem addUser_active_mem (s : SchedState) (u : Nat) : u ∈ (addUser s u).active := by
  by_cases hu : u ∈ s.active
  · rw [addUser_mem hu]
    exact hu
  · rw [addUser, if_neg hu]
    show u ∈ s.active ++ [u]
    simp

/-- The second addUser call for the same user is a pure no-op. -/
theorem addUser_idem (s : SchedState) (u : Nat) :
    addUser (addUser s u) u = addUser s u :=
  addUser_mem (addUser_active_mem s u)

/-- removeUser always removes the user from the active set. -/
theorem removeUser_not_active (s : SchedState) (u : Nat) :
    u ∉ (removeUser s u).active := by
  by_cases hu : u ∈ s.active
  · rw [removeUser, if_pos hu]
    cases hget : mapGet? s.schedMap u with
    | some id =>
      intro hm
      simpa using (List.mem_filter.1 hm).2
    | none =>
      intro hm
      simpa using (List.mem_filter.1 hm).2
  · rw [removeUser, if_neg hu]
    exact hu

/-! Theorems settling the claims, one theorem per claim, with witnesses
for the theorems that carry hypotheses. -/

/-- C9: for every userId and limit, when the underlying store fetch
fails the Review Selector returns the empty sequence; the failure is
swallowed inside getReviewItems and never reaches the caller. -/
theorem getReviewItems_fetch_error (msg : String) (limit : Nat)
    (shuffle : Nat → List ReviewItem → List ReviewItem) :
    getReviewItems (.error msg) limit shuffle = [] := rfl

/-- C3: for every fetched record sequence and every value of the
injected shuffle randomness, getReviewItems returns at most one
candidate per distinct phraseKey, and each returned candidate is the
first occurrence of its key in the newest-first traversal of the
records — i.e. searching the undeduplicated candidate list for that key
finds exactly the returned candidate, so the occurrence from the
most-recently-created record wins. -/
theorem getReviewItems_dedup_spec (docs : List FeedbackDoc) (limit : Nat)
    (shuffle : Nat → List ReviewItem → List ReviewItem)
    (hsh : ∀ k l, (shuffle k l).Perm l) :
    ((getReviewItems (.ok docs) limit shuffle).map fun x => x.phraseId).Nodup ∧
    ∀ x ∈ getReviewItems (.ok docs) limit shuffle,
      (flatItems docs).find? (fun y => y.phraseId == x.phraseId) = some x :=
  ⟨getReviewItems_keys_nodup docs limit shuffle hsh,
   fun _ hx => find?_of_mem_dedupByKey (mem_dedup_of_mem_getReviewItems hsh hx)⟩

/-- C3 witness: on two records sharing the key "x-y" the selector keeps
the occurrence from the newer record and returns distinct keys. -/
theorem getReviewItems_dedup_spec_witness :
    (((getReviewItems (.ok dupDocs) 5 fun _ l => l).map fun x => x.phraseId).Nodup) ∧
    ∀ x ∈ getReviewItems (.ok dupDocs) 5 (fun _ l => l),
      (flatItems dupDocs).find? (fun y => y.phraseId == x.phraseId) = some x :=
  getReviewItems_dedup_spec dupDocs 5 (fun _ l => l) (fun _ l => List.Perm.refl l)

/-- C4: for every fetched input and every value of the injected shuffle
randomness, the selector output is sorted by importance descending
across group boundaries and has length at most limit; in the scenario
with six records of importances [5, 3, 3, 1, 5, 2] and zero
repetitions, a call with limit 3 returns the two importance-5 items (in
some order) followed by one importance-3 item, never an importance-1 or
importance-2 item. -/
theorem getReviewItems_sorted_spec
    (shuffle : Nat → List ReviewItem → List ReviewItem)
    (hsh : ∀ k l, (shuffle k l).Perm l) :
    (∀ (fetch : Except String (List FeedbackDoc)) (limit : Nat),
      (((getReviewItems fetch limit shuffle).map fun x => x.importance).Sorted (· ≥ ·)) ∧
      (getReviewItems fetch limit shuffle).length ≤ limit) ∧
    ((getReviewItems (.ok scenarioDocs) 3 shuffle).map fun x => x.importance) = [5, 5, 3] ∧
    ((getReviewItems (.ok scenarioDocs) 3 shuffle).take 2).Perm [scenItemA, scenItemE] := by
  have hkeys : importanceKeys (List.insertionSort itemLE (scanDocs scenarioDocs []))
      = [5, 3, 2, 1] := by decide
  have hg5 : List.insertionSort repLE
      (groupFor (List.insertionSort itemLE (scanDocs scenarioDocs [])) 5)
      = [scenItemA, scenItemE] := by decide
  have hg3 : List.insertionSort repLE
      (groupFor (List.insertionSort itemLE (scanDocs scenarioDocs [])) 3)
      = [scenItemB, scenItemC] := by decide
  have hg2 : List.insertionSort repLE
      (groupFor (List.insertionSort itemLE (scanDocs scenarioDocs [])) 2)
      = [scenItemF] := by decide
  have hg1 : List.insertionSort repLE
      (groupFor (List.insertionSort itemLE (scanDocs scenarioDocs [])) 1)
      = [scenItemD] := by decide
  have hlen5 : (shuffle 5 [scenItemA, scenItemE]).length = 2 :=
    (hsh 5 _).length_eq.trans rfl
  have hlen3 : (shuffle 3 [scenItemB, scenItemC]).length = 2 :=
    (hsh 3 _).length_eq.trans rfl
  have hr : getReviewItems (.ok scenarioDocs) 3 shuffle
      = (shuffle 5 [scenItemA, scenItemE] ++ (shuffle 3 [scenItemB, scenItemC] ++
          (shuffle 2 [scenItemF] ++ (shuffle 1 [scenItemD] ++ [])))).take 3 := by
    rw [getReviewItems_ok_eq scenarioDocs 3 shuffle rfl]
    simp only [randomizedItems]
    rw [hkeys]
    simp only [List.map_cons, List.map_nil, List.flatten_cons, List.flatten_nil]
    rw [hg5, hg3, hg2, hg1]
  have hsplit : getReviewItems (.ok scenarioDocs) 3 shuffle
      = shuffle 5 [scenItemA, scenItemE] ++ List.take 1 (shuffle 3 [scenItemB, scenItemC]) := by
    rw [hr, List.take_append_eq_append_take,
        List.take_of_length_le (by rw [hlen5]; norm_num), hlen5]
    norm_num
    right
    rw [hlen3]
    norm_num
  have hmem5 : ∀ x ∈ shuffle 5 [scenItemA, scenItemE], x.importance = 5 := by
    intro x hx
    have hx2 := (hsh 5 _).subset hx
    rcases List.mem_cons.1 hx2 with rfl | hx3
    · decide
    · rcases List.mem_cons.1 hx3 with rfl | hx4
      · decide
      · simp at hx4
  rcases List.length_eq_two.1 hlen5 with ⟨a, b, hab⟩
  rcases List.length_eq_two.1 hlen3 with ⟨y, z, hyz⟩
  have hyimp : y.importance = 3 := by
    have hy := (hsh 3 _).subset (by rw [hyz]; exact List.mem_cons_self _ _)
    rcases List.mem_cons.1 hy with rfl | hy2
    · decide
    · rcases List.mem_cons.1 hy2 with rfl | hy3
      · decide
      · simp at hy3
  have htake3 : List.take 1 (shuffle 3 [scenItemB, scenItemC]) = [y] := by
    rw [hyz]
    rfl
  refine ⟨?_, ?_, ?_⟩
  · intro fetch limit
    cases fetch with
    | error msg => simp [getReviewItems]
    | ok docs =>
      by_cases hd : docs.isEmpty
      · rw [getReviewItems, if_pos (by simp [hd])]
        simp
      · rw [getReviewItems_ok_eq docs limit shuffle (by simpa using hd)]
        constructor
        · rw [List.map_take]
          exact (randomizedItems_sorted docs shuffle hsh).sublist (List.take_sublist _ _)
        · exact List.length_take_le _ _
  · rw [hsplit, htake3, hab, List.map_append]
    have ha5 : a.importance = 5 := hmem5 a (by rw [hab]; exact List.mem_cons_self _ _)
    have hb5 : b.importance = 5 := hmem5 b (by rw [hab]; simp)
    simp [ha5, hb5, hyimp]
  · rw [hsplit, htake3, List.take_append_eq_append_take,
        List.take_of_length_le (by rw [hlen5]), hlen5]
    norm_num
    exact hsh 5 _

/-- C4 witness: with the identity shuffle (a legal value of the
randomness) the scenario call returns importances [5, 5, 3] and its
first two items are the two importance-5 candidates. -/
theorem getReviewItems_sorted_spec_witness :
    ((getReviewItems (.ok scenarioDocs) 3 fun _ l => l).map fun x => x.importance) = [5, 5, 3] ∧
    ((getReviewItems (.ok scenarioDocs) 3 fun _ l => l).take 2).Perm [scenItemA, scenItemE] :=
  ⟨(getReviewItems_sorted_spec (fun _ l => l) (fun _ l => List.Perm.refl l)).2.1,
   (getReviewItems_sorted_spec (fun _ l => l) (fun _ l => List.Perm.refl l)).2.2⟩

/-- C2: shouldSendChallenge returns false exactly when the store read
succeeds and the user's logged entries for the current week number at
least 4, and returns true whenever the store read fails (fail open); as
a total function it never raises to its caller. -/
theorem shouldSendChallenge_spec
    (store : String → Except String (List ChallengeLogEntry))
    (userId : String) (dayOfYear startDay : Nat) :
    (shouldSendChallenge store userId dayOfYear startDay = false ↔
      ∃ entries, store userId = .ok entries ∧
        4 ≤ (entries.filter fun e => e.week == getCurrentWeek dayOfYear startDay).length) ∧
    (∀ msg, store userId = .error msg →
      shouldSendChallenge store userId dayOfYear startDay = true) := by
  constructor
  · unfold shouldSendChallenge
    cases h : store userId with
    | error e => simp
    | ok entries =>
      simp only [decide_eq_false_iff_not, Nat.not_lt, Except.ok.injEq]
      constructor
      · intro hle
        exact ⟨entries, rfl, hle⟩
      · rintro ⟨es, rfl, hle⟩
        exact hle
  · intro msg hmsg
    unfold shouldSendChallenge
    rw [hmsg]

/-- C2 witness: with exactly four logged entries in week 7 the check
denies the challenge, and with a failing store read it allows it. -/
theorem shouldSendChallenge_spec_witness :
    shouldSendChallenge
        (fun _ => .ok [⟨"practice", 7⟩, ⟨"practice", 7⟩, ⟨"review", 7⟩, ⟨"review", 7⟩])
        "u1" 41 6 = false ∧
    shouldSendChallenge (fun _ => .error "read failed") "u1" 41 6 = true :=
  ⟨(shouldSendChallenge_spec
      (fun _ => .ok [⟨"practice", 7⟩, ⟨"practice", 7⟩, ⟨"review", 7⟩, ⟨"review", 7⟩])
      "u1" 41 6).1.mpr ⟨_, rfl, by decide⟩,
   (shouldSendChallenge_spec (fun _ => .error "read failed") "u1" 41 6).2 "read failed" rfl⟩

/-- C6: when the eligibility check and (if eligible) the dispatch
complete without a rejection, the timer armed by a firing has a delay in
the interval from 2 days inclusive to 4 days exclusive; when either
rejects, the armed timer has a delay of exactly one hour; in every case
its callback re-runs the whole sendChallenge fire sequence. -/
theorem sendChallengeFire_spec (u : Nat) (elig : Except String Bool)
    (dispatchErr : Option String) (rand : ℚ) (h0 : 0 ≤ rand) (h1 : rand < 1) :
    (∀ b, elig = .ok b → (b = true → dispatchErr = none) →
      2 * dayMs ≤ (sendChallengeFire u elig dispatchErr rand).delayMs ∧
      (sendChallengeFire u elig dispatchErr rand).delayMs < 4 * dayMs ∧
      (sendChallengeFire u elig dispatchErr rand).handler = .sendChallenge u) ∧
    (∀ msg, elig = .error msg →
      sendChallengeFire u elig dispatchErr rand = ⟨hourMs, .sendChallenge u⟩) ∧
    (∀ msg, elig = .ok true → dispatchErr = some msg →
      sendChallengeFire u elig dispatchErr rand = ⟨hourMs, .sendChallenge u⟩) := by
  have hday : (0 : ℚ) < dayMs := by norm_num [dayMs]
  have hlow : 2 * dayMs ≤ (2 + rand * 2) * dayMs := by nlinarith
  have hhigh : (2 + rand * 2) * dayMs < 4 * dayMs := by nlinarith
  refine ⟨?_, ?_, ?_⟩
  · rintro b rfl hok
    cases b with
    | false => exact ⟨hlow, hhigh, rfl⟩
    | true =>
      rw [hok rfl]
      exact ⟨hlow, hhigh, rfl⟩
  · rintro msg rfl
    rfl
  · rintro msg rfl hsome
    rw [hsome]
    rfl

/-- C6 witness: with an eligible user, a clean dispatch and random draw
0 the armed delay lies in the 2-4 day window, and with a rejected
eligibility read the armed delay is exactly one hour. -/
theorem sendChallengeFire_spec_witness :
    (2 * dayMs ≤ (sendChallengeFire 1 (.ok true) none 0).delayMs ∧
      (sendChallengeFire 1 (.ok true) none 0).delayMs < 4 * dayMs ∧
      (sendChallengeFire 1 (.ok true) none 0).handler = .sendChallenge 1) ∧
    sendChallengeFire 1 (.error "boom") none 0 = ⟨hourMs, .sendChallenge 1⟩ :=
  ⟨(sendChallengeFire_spec 1 (.ok true) none 0 (by norm_num) (by norm_num)).1
      true rfl (fun _ => rfl),
   (sendChallengeFire_spec 1 (.error "boom") none 0 (by norm_num) (by norm_num)).2.1
      "boom" rfl⟩

/-- C1: evidence of the divergence.  With the coin flip selecting review
and an empty feedback store, the selector returns no candidate and the
dispatcher does fall back to a practice challenge, but the delivery-log
entry it appends carries type "review" (computed from the coin flip),
not "practice" (the path actually taken). -/
theorem sendAutomatedChallenge_fallback_logs_review :
    (sendAutomatedChallenge true [] true (fun _ l => l) (.ok "Uebung") 41 6 []).sent
        = .practiceChallenge "Uebung" ∧
    (sendAutomatedChallenge true [] true (fun _ l => l) (.ok "Uebung") 41 6 []).log
        = [⟨"review", 7⟩] :=
  ⟨rfl, rfl⟩

/-- C7: through every sequence of the public scheduler operations
(addUser, removeUser, start) each active user has exactly one armed
timeout and each inactive user none; a second addUser call for the same
user is a pure no-op leaving exactly one armed timer; and addUser
followed immediately by removeUser leaves zero armed timers for that
user and the user absent from getStatus().activeUsers. -/
theorem scheduler_one_timer_per_user :
    (∀ (ops : List SchedOp) (u : Nat), u ∈ (runOps ops).active →
      ((runOps ops).pending.filter fun t => t.2 == u).length = 1) ∧
    (∀ (ops : List SchedOp) (u : Nat), u ∉ (runOps ops).active →
      (runOps ops).pending.filter (fun t => t.2 == u) = []) ∧
    (∀ (s : SchedState) (u : Nat), addUser (addUser s u) u = addUser s u) ∧
    (∀ (ops : List SchedOp) (u : Nat),
      (removeUser (addUser (runOps ops) u) u).pending.filter (fun t => t.2 == u) = [] ∧
      u ∉ (getStatus (removeUser (addUser (runOps ops) u) u)).activeUsers) := by
  refine ⟨?_, ?_, addUser_idem, ?_⟩
  · intro ops u hu
    exact (schedInv_pending_filter (schedInv_runOps ops) u).1 hu
  · intro ops u hu
    exact (schedInv_pending_filter (schedInv_runOps ops) u).2 hu
  · intro ops u
    have hInv2 := schedInv_removeUser (schedInv_addUser (schedInv_runOps ops) u) u
    have hna : u ∉ (removeUser (addUser (runOps ops) u) u).active :=
      removeUser_not_active _ u
    exact ⟨(schedInv_pending_filter hInv2 u).2 hna, hna⟩

/-- C7 witness: after addUser 1, user 1 has exactly one armed timeout
and user 2 none; after addUser 1 then removeUser 1, user 1 has none. -/
theorem scheduler_one_timer_per_user_witness :
    (((runOps [SchedOp.add 1]).pending.filter fun t => t.2 == 1).length = 1) ∧
    ((runOps [SchedOp.add 1]).pending.filter (fun t => t.2 == 2) = []) ∧
    ((removeUser (addUser (runOps []) 1) 1).pending.filter (fun t => t.2 == 1) = []) :=
  ⟨scheduler_one_timer_per_user.1 [SchedOp.add 1] 1 (by decide),
   scheduler_one_timer_per_user.2.1 [SchedOp.add 1] 2 (by decide),
   (scheduler_one_timer_per_user.2.2.2 [] 1).1⟩

/-- C8: evidence of the divergence.  A timer fires for user 7 (its
handler is in flight), removeUser races the firing, and when the firing
completes it re-arms a fresh timer and records it in the map, leaving
the removed user with a dangling armed timer whose callback will run
sendChallenge again. -/
theorem removed_user_dangling_timer :
    7 ∉ (runEvents [.add 7, .timerFires 0 7, .remove 7, .handlerCompletes 7]).active ∧
    (1, 7) ∈ (runEvents [.add 7, .timerFires 0 7, .remove 7, .handlerCompletes 7]).pending ∧
    getStatus (runEvents [.add 7, .timerFires 0 7, .remove 7, .handlerCompletes 7])
        = ⟨[], 1, 0⟩ := by
  decide

/-- C10: for a non-empty message whose newline-separated lines are all
strictly shorter than maxLength, splitMessage returns chunks of length
at most maxLength whose concatenation is the message with exactly one
extra trailing newline; the empty (falsy) message yields no chunks. -/
theorem splitMessage_spec (message : List Char) (maxLength : Nat)
    (hne : message ≠ [])
    (hlines : ∀ line ∈ splitLinesNl message, line.length < maxLength) :
    (∀ ch ∈ splitMessage message maxLength, ch.length ≤ maxLength) ∧
    (splitMessage message maxLength).flatten = message ++ ['\n'] ∧
    splitMessage [] maxLength = [] := by
  have hemp : message.isEmpty = false := by
    simpa [List.isEmpty_iff] using hne
  refine ⟨?_, ?_, rfl⟩
  · intro ch hch
    rw [splitMessage, if_neg (by simp [hemp])] at hch
    refine splitMessageGo_length_le maxLength (splitLinesNl message) [] [] ?_ ?_ ?_ ch hch
    · intro line hline
      exact Nat.succ_le_of_lt (hlines line hline)
    · intro c hc; simp at hc
    · simp
  · rw [splitMessage, if_neg (by simp [hemp])]
    rw [splitMessageGo_flatten]
    simp [splitLinesNl_join]

/-- C10 witness: the two-character message "ab" with limit 5 is returned
as a single chunk "ab" plus newline. -/
theorem splitMessage_spec_witness :
    (∀ ch ∈ splitMessage ['a', 'b'] 5, ch.length ≤ 5) ∧
    (splitMessage ['a', 'b'] 5).flatten = ['a', 'b'] ++ ['\n'] ∧
    splitMessage [] 5 = [] :=
  splitMessage_spec ['a', 'b'] 5 (by decide) (by decide)

end WortlCoach
